import Mathlib

/-
  A shallow embedding of the `spatial_trees` Rust crate (quad-, oct- and
  planet-trees with arena storage, grow/shrink refinement, neighbor search
  and neighbor-size bookkeeping).

  Conventions of the embedding:
  * `f32` values are modelled as `ℚ`.  All arithmetic the code performs on
    sizes and positions (halving, quartering, addition, comparison) is exact
    on dyadic rationals, so `ℚ` represents the source computations faithfully
    on the inputs considered here.
  * Arena keys are `Nat`.  The slotmap allocates fresh keys; we model this by
    a monotone `next_key` counter, so keys are never reused (a slotmap's
    generational keys likewise never alias a removed node).
  * Fixed-size arrays `[T; D]` are modelled as lists of length `D`; the Rust
    iterator pipelines (`zip`, `all`, `enumerate`, `fold`) map to the
    corresponding list functions.
  * Rust `Vec` work lists use `push`/`pop` at the back; we represent them as
    lists with the *head* as the top of the stack, so `extend(children)`
    becomes `children.reverse ++ rest`.
  * `i32` division truncates toward zero; we use `Int.tdiv` which has the
    same convention.
  * Unbounded `while` loops become fuel-indexed recursions returning
    `Option`; `none` corresponds to fuel exhaustion (the Rust loops are
    unbounded, and for `insert` genuinely need not terminate when
    `min_size ≤ 0`).  `get_node_unchecked` on a missing key (a panic in
    Rust) is modelled by a default node.
-/

namespace SpatialTrees

/-- The planet-tree `Direction` enum (cube face tags). -/
inductive Direction where
  | xneg | xpos | yneg | ypos | zneg | zpos | dnone
deriving DecidableEq, Repr

/-- `Direction as usize` (discriminant values 0..6 from the source). -/
def Direction.toIdx : Direction → Nat
  | .xneg => 0
  | .xpos => 1
  | .yneg => 2
  | .ypos => 3
  | .zneg => 4
  | .zpos => 5
  | .dnone => 6

/-- `From<[i32; 3]> for Direction`. -/
def directionFromVec (v : List Int) : Direction :=
  if v = [1, 0, 0] then .xpos
  else if v = [-1, 0, 0] then .xneg
  else if v = [0, 1, 0] then .ypos
  else if v = [0, -1, 0] then .yneg
  else if v = [0, 0, 1] then .zpos
  else if v = [0, 0, -1] then .zneg
  else .dnone

/--
One node record.  It merges the fields of `QuadTreeNode`, `OctTreeNode`
(`size`, `pos`, `neighbor_sizes`, `parent`, `children`) and
`PlanetTreeNode` (additionally `direction` and `world_pos`); quad/oct nodes
simply never read the planet-only fields.
-/
structure Node where
  size : ℚ
  pos : List ℚ
  neighbor_sizes : List ℚ
  parent : Option Nat
  children : Option (List Nat)
  direction : Direction
  world_pos : List ℚ
deriving DecidableEq, Repr

/-- The node used to model a panicking `get_node_unchecked` on a dead key. -/
def defaultNode : Node :=
  { size := 0, pos := [], neighbor_sizes := [], parent := none,
    children := none, direction := .dnone, world_pos := [] }

/-- `Boundary::from_bounds` for quad/oct nodes (`neighbor_sizes` start at the
sentinel `-1`, no parent, no children). -/
def from_bounds (D : Nat) (size : ℚ) (pos : List ℚ) : Node :=
  { size := size, pos := pos, neighbor_sizes := List.replicate (2 * D) (-1),
    parent := none, children := none, direction := .dnone, world_pos := [] }

/-- `PlanetTreeNode::new`. -/
def planetNodeNew (size : ℚ) (pos : List ℚ) (world_pos : List ℚ)
    (direction : Direction) : Node :=
  { size := size, pos := pos, neighbor_sizes := List.replicate 4 (-1),
    parent := none, children := none, direction := direction,
    world_pos := world_pos }

/-- `Boundary::contains_point`: every component strictly inside
`(center - size/2, center + size/2)`. -/
def contains_point (n : Node) (p : List ℚ) : Bool :=
  let half_size := n.size / 2
  (p.zip n.pos).all fun q =>
    decide (q.2 - half_size < q.1) && decide (q.1 < q.2 + half_size)

/-- `child_position::<D>(child_index)`: octant sign vector of a child index. -/
def child_position_aux : Nat → Nat → Nat → List Int
  | 0, _, _ => []
  | d + 1, i, idx =>
      let v := idx % ((i + 1) * 2)
      (if v = 0 then (-1 : Int) else 1) :: child_position_aux d (i + 1) (idx - v)

/-- `child_position::<D>` from `node_traits.rs`. -/
def child_position (D : Nat) (child_index : Nat) : List Int :=
  child_position_aux D 0 child_index

/-- `neighbor_index::<D>(direction)`: slot in `neighbor_sizes` for a face
direction, `none` for the zero direction. -/
def neighbor_index (direction : List Int) : Option Nat :=
  let index := (direction.enum.foldl (fun acc (e : Nat × Int) =>
    acc + (if e.2 = -1 then ((e.1 : Int) * 2 + 1)
           else if e.2 = 1 then ((e.1 : Int) * 2 + 2)
           else 0)) (-1 : Int))
  if index ≠ -1 then some index.toNat else none

/-- `child_positions_in_direction::<D>`: the `2^(D-1)` child octants lying on
the face given by `direction`. -/
def child_positions_in_direction (D : Nat) (direction : List Int) : List (List Int) :=
  let non_zero_index := direction.findIdx (fun v => v ≠ 0)
  let num_border_children := 2 ^ D / 2
  (List.range num_border_children).map fun child_index0 =>
    (List.range (D - 1)).foldl (fun (st : List Int × Nat) pos =>
        let v := st.2 % ((pos + 1) * 2)
        let rest := st.2 - v
        let sgn : Int := if v = 0 then -1 else 1
        (if pos < non_zero_index then st.1.set pos sgn else st.1.set (pos + 1) sgn,
         rest))
      (direction, child_index0) |>.1

/-- `all_neighbor_directions::<D>` (note the source uses `out[i % D]`, which
for `D = 2` repeats the directions `[-1,0]` and `[0,1]` instead of producing
all four faces). -/
def all_neighbor_directions (D : Nat) : List (List Int) :=
  (List.range (D * 2)).map fun i =>
    let v : Int := if i % 2 = 0 then -1 else 1
    (List.replicate D (0 : Int)).set (i % D) v

/-- `ChildBehaviour::get_child`: child key addressed by an octant direction. -/
def get_child (n : Node) (direction : List Int) : Option Nat :=
  n.children.map fun children =>
    let index := (direction.enum.foldl (fun acc (e : Nat × Int) =>
      acc + (max 0 (min 1 e.2)) * ((e.1 : Int) + 1 + max 0 (min 1 ((e.1 : Int) - 1))))
      (0 : Int)).toNat
    children.getD index 0

/-- `ChildBehaviour::get_child_index`: position of a key in the child array. -/
def get_child_index (n : Node) (child : Nat) : Option Nat :=
  n.children.bind fun children => children.indexOf? child

/-- `ChildBehaviour::child_position_from_key`. -/
def child_position_from_key (D : Nat) (n : Node) (child : Nat) : Option (List Int) :=
  (get_child_index n child).map (child_position D)

/-- The arena: an association list from keys to nodes (insertion order). -/
abbrev Arena := List (Nat × Node)

/-- Checked arena lookup (`SlotMap::get`). -/
def lookupA (ns : Arena) (k : Nat) : Option Node :=
  (ns.find? (fun kn => kn.1 = k)).map (·.2)

/-- In-place node update; a missing key leaves the arena unchanged. -/
def updateA (ns : Arena) (k : Nat) (f : Node → Node) : Arena :=
  ns.map fun kn => if kn.1 = k then (kn.1, f kn.2) else kn

/-- `SlotMap::remove`: drop the entry for `k`. -/
def removeA (ns : Arena) (k : Nat) : Arena :=
  ns.filter fun kn => kn.1 ≠ k

/--
Tree state shared by all three variants: the arena, the fresh-key counter,
`min_size` and the root list (`[root]` for `NTree`, six face roots for
`PlanetTree`).
-/
structure Tree where
  nodes : Arena
  next_key : Nat
  min_size : ℚ
  roots : List Nat
deriving DecidableEq, Repr

/-- `get_node_unchecked`, with the panic on a dead key modelled by
`defaultNode`. -/
def getU (st : Tree) (k : Nat) : Node :=
  (lookupA st.nodes k).getD defaultNode

/-- `SlotMap::insert`: allocate a fresh key for `n`. -/
def insert_node (st : Tree) (n : Node) : Nat × Tree :=
  (st.next_key,
   { st with nodes := st.nodes ++ [(st.next_key, n)], next_key := st.next_key + 1 })

/-- `NTree::<T, D>::new`: a single root node, no validation of the inputs. -/
def ntree_new (D : Nat) (min_size size : ℚ) (pos : List ℚ) : Tree :=
  { nodes := [(0, from_bounds D size pos)], next_key := 1,
    min_size := min_size, roots := [0] }

/-- The tree events (`TreeEvent` in `tree_traits.rs`). -/
inductive TreeEvent where
  | Grown (parent : Nat) (children : List Nat)
  | Shrunk (retained : Nat) (removed : List Nat)
  | NeighborSizesChanged (k : Nat)
deriving DecidableEq, Repr

/-- `NeighborSizeEvent` from `tree_traits.rs`. -/
inductive NeighborSizeEvent where
  | ChangedSize | New | NoneEv
deriving DecidableEq, Repr

/-- Size measure used to pick a sufficient fuel for the removal work list:
one unit per arena entry plus one per stored child key. -/
def arenaMeasure (ns : Arena) : Nat :=
  ns.foldr (fun kn acc => 1 + (kn.2.children.getD []).length + acc) 0

/-- The work-list loop of `TreeBehaviour::remove_children_recursively`.
Each popped key is removed from the arena; a removed node's children are
pushed, and childless removed nodes are appended to `removed`. -/
def remove_loop : Nat → Arena → List Nat → List Nat → Option (List Nat × Arena)
  | _, ns, [], removed => some (removed, ns)
  | 0, _, _ :: _, _ => none
  | fuel + 1, ns, k :: rest, removed =>
      match lookupA ns k with
      | none => remove_loop fuel ns rest removed
      | some n =>
          let ns1 := removeA ns k
          let children := n.children.getD []
          if children.isEmpty then
            remove_loop fuel ns1 rest (removed ++ [k])
          else
            remove_loop fuel ns1 (children.reverse ++ rest) removed

/-- `TreeBehaviour::remove_children_recursively`: take the parent's children
(marking it a leaf) and delete the whole subtree, collecting the keys of the
removed *leaves*. -/
def remove_children_recursively (st : Tree) (parent_key : Nat) :
    Option (List Nat × Tree) :=
  let children := (getU st parent_key).children.getD []
  let ns1 := updateA st.nodes parent_key (fun n => { n with children := none })
  (remove_loop (children.length + arenaMeasure ns1 + 1) ns1 children.reverse
      []).map fun r => (r.1, { st with nodes := r.2 })

/-- `TreeBehaviour::shrink_event`: remove the subtree and push a `Shrunk`
event when anything was removed. -/
def shrink_event (st : Tree) (events : List TreeEvent) (parent_key : Nat) :
    Option (List TreeEvent × Tree) :=
  (remove_children_recursively st parent_key).map fun r =>
    (if r.1.isEmpty then events
     else events ++ [TreeEvent.Shrunk parent_key r.1], r.2)

/-- The reverse scan inside `grow_event`: the input list is the event list
reversed; the first `Grown` whose parent contains `pos` (and, for the planet
variant, matches the face test `ok`) absorbs the new children, retaining only
the still-leaf entries. -/
def grow_scan (st : Tree) (ok : Node → Bool) (pos : List ℚ)
    (new_children : List Nat) : List TreeEvent → Option (List TreeEvent)
  | [] => none
  | e :: rest =>
      match e with
      | TreeEvent.Grown parent children =>
          if ok (getU st parent) && contains_point (getU st parent) pos then
            some (TreeEvent.Grown parent
              ((children.filter fun c => !(getU st c).children.isSome)
                ++ new_children) :: rest)
          else (grow_scan st ok pos new_children rest).map (e :: ·)
      | _ => (grow_scan st ok pos new_children rest).map (e :: ·)

/-- `TreeBehaviour::grow_event` (default implementation): coalesce into the
most recent `Grown` whose parent contains the subdivision point, else push a
fresh `Grown`. -/
def grow_event (st : Tree) (events : List TreeEvent) (pos : List ℚ)
    (parent_key : Nat) (new_children : List Nat) : List TreeEvent :=
  match grow_scan st (fun _ => true) pos new_children events.reverse with
  | some r => r.reverse
  | none => events ++ [TreeEvent.Grown parent_key new_children]

/-- `PlanetTree::grow_event`: as `grow_event`, but a `Grown` on a different
face never absorbs the new children. -/
def planet_grow_event (st : Tree) (events : List TreeEvent) (pos : List ℚ)
    (parent_key : Nat) (new_children : List Nat) : List TreeEvent :=
  let parent_direction := (getU st parent_key).direction
  match grow_scan st (fun n => n.direction = parent_direction) pos
      new_children events.reverse with
  | some r => r.reverse
  | none => events ++ [TreeEvent.Grown parent_key new_children]

/-- The node built for one child index inside
`TreeBehaviour::create_children`: a `from_bounds` leaf of half the parent's
size at `parent.pos ± parent.size/4`, linked back to the parent. -/
def make_child (D : Nat) (parent_key : Nat) (parent : Node)
    (child_index : Nat) : Node :=
  let new_size := parent.size / 2
  let quart_size := parent.size / 4
  let p := child_position D child_index
  let child_pos := List.zipWith (fun out q => out + (q : ℚ) * quart_size)
    parent.pos p
  { (from_bounds D new_size child_pos) with parent := some parent_key }

/-- `TreeBehaviour::create_children` (default implementation): insert the
`2^D` half-size children and store their keys in the parent. -/
def create_children (D : Nat) (st : Tree) (parent_key : Nat) :
    List Nat × Tree :=
  let parent := getU st parent_key
  let r := (List.range (2 ^ D)).foldl (fun (acc : List Nat × Tree) child_index =>
      let kt := insert_node acc.2 (make_child D parent_key parent child_index)
      (acc.1 ++ [kt.1], kt.2)) ([], st)
  (r.1, { r.2 with nodes :=
            updateA r.2.nodes parent_key (fun n => { n with children := some r.1 }) })

/-- `map_from_dir_and_world_pos`: project a world position to a face's local
2D coordinates. -/
def map_from_dir_and_world_pos (dir : Direction) (pos : List ℚ) : List ℚ :=
  match dir with
  | .xpos | .xneg => [pos.getD 1 0, pos.getD 2 0]
  | .ypos | .yneg => [pos.getD 0 0, pos.getD 2 0]
  | .zpos | .zneg => [pos.getD 0 0, pos.getD 1 0]
  | .dnone => [0, 0]

/-- `map_from_dir_and_local_pos`: embed a face-local 2D position into the
world position, keeping the face's fixed axis. -/
def map_from_dir_and_local_pos (dir : Direction) (pos : List ℚ)
    (world_pos : List ℚ) : List ℚ :=
  match dir with
  | .xpos | .xneg => [world_pos.getD 0 0, pos.getD 0 0, pos.getD 1 0]
  | .ypos | .yneg => [pos.getD 0 0, world_pos.getD 1 0, pos.getD 1 0]
  | .zpos | .zneg => [pos.getD 0 0, pos.getD 1 0, world_pos.getD 2 0]
  | .dnone => world_pos

/-- The node built for one child index inside
`PlanetTree::create_children`: a `PlanetTreeNode::new` leaf of half the
parent's size carrying the parent's face tag, with its world position
derived from the local position. -/
def planet_make_child (parent_key : Nat) (parent : Node)
    (child_index : Nat) : Node :=
  let new_size := parent.size / 2
  let quart_size := parent.size / 4
  let p := child_position 2 child_index
  let child_pos := List.zipWith (fun out q => out + (q : ℚ) * quart_size)
    parent.pos p
  { (planetNodeNew new_size child_pos
      (map_from_dir_and_local_pos parent.direction child_pos parent.world_pos)
      parent.direction) with parent := some parent_key }

/-- `PlanetTree::create_children`: like the generic version but propagating
the face tag and deriving each child's world position. -/
def planet_create_children (st : Tree) (parent_key : Nat) :
    List Nat × Tree :=
  let parent := getU st parent_key
  let r := (List.range (2 ^ 2)).foldl (fun (acc : List Nat × Tree) child_index =>
      let kt := insert_node acc.2 (planet_make_child parent_key parent child_index)
      (acc.1 ++ [kt.1], kt.2)) ([], st)
  (r.1, { r.2 with nodes :=
            updateA r.2.nodes parent_key (fun n => { n with children := some r.1 }) })

/--
The work-list loop of `TreeBehaviour::insert`, parameterised by the
`create_children` and `grow_event` implementations (the planet tree overrides
both).  One unit of fuel is spent per popped key; `none` means the fuel ran
out with work pending.
-/
def insert_loop (cc : Tree → Nat → List Nat × Tree)
    (ge : Tree → List TreeEvent → List ℚ → Nat → List Nat → List TreeEvent) :
    Nat → (Node → Bool) → Tree → List Nat → List TreeEvent →
    Option (List TreeEvent × Tree)
  | _, _, st, [], events => some (events, st)
  | 0, _, _, _ :: _, _ => none
  | fuel + 1, f, st, node_key :: rest, events =>
      if f (getU st node_key) then
        match (getU st node_key).children with
        | some children =>
            insert_loop cc ge fuel f st (children.reverse ++ rest) events
        | none =>
            if st.min_size < (getU st node_key).size then
              let parent_pos := (getU st node_key).pos
              let r := cc st node_key
              let events1 := ge r.2 events parent_pos node_key r.1
              insert_loop cc ge fuel f r.2 (r.1.reverse ++ rest) events1
            else
              insert_loop cc ge fuel f st rest events
      else
        match shrink_event st events node_key with
        | some r => insert_loop cc ge fuel f r.2 rest r.1
        | none => none

/-- `TreeBehaviour::insert` for the generic `NTree` (quad/oct). -/
def insertN (D : Nat) (fuel : Nat) (f : Node → Bool) (st : Tree) :
    Option (List TreeEvent × Tree) :=
  insert_loop (create_children D) grow_event fuel f st st.roots.reverse []

/-- `TreeBehaviour::insert` for the `PlanetTree`. -/
def insertP (fuel : Nat) (f : Node → Bool) (st : Tree) :
    Option (List TreeEvent × Tree) :=
  insert_loop planet_create_children planet_grow_event fuel f st
    st.roots.reverse []

/-- One step of the ascent in `find_shared_parent`: the mirrored descent
entry `nd_i * (1 - 2*|dir_i|)` for each axis. -/
def mirror_descent (node_descent working_direction : List Int) : List Int :=
  List.zipWith (fun nd dir => nd * (1 - 2 * dir.natAbs)) node_descent
    working_direction

/-- One step of the ascent in `find_shared_parent`: the updated working
direction `(nd_i + wd_i) / 2` with truncating division. -/
def step_direction (working_direction node_descent : List Int) : List Int :=
  List.zipWith (fun wd nd => Int.tdiv (nd + wd) 2) working_direction
    node_descent

/--
The ascent loop shared by `TreeNeighbourBehaviour::find_shared_parent` and
`PlanetTree::find_shared_parent`: climb parents, recording mirrored descent
entries, until the working direction cancels or a root is reached.  Returns
the node reached, the final working direction and the recorded descents;
`none` models fuel exhaustion (a parent cycle, impossible in well-formed
trees) or the `unwrap` panic when a node is not among its parent's children.
-/
def ascend (D : Nat) (st : Tree) :
    Nat → Nat → List Int → List (List Int) →
    Option (Nat × List Int × List (List Int))
  | 0, _, _, _ => none
  | fuel + 1, node, working_direction, neighbor_descents =>
      match (getU st node).parent with
      | none => some (node, working_direction, neighbor_descents)
      | some parent =>
          if working_direction.all (· = 0) then
            some (node, working_direction, neighbor_descents)
          else
            match child_position_from_key D (getU st parent) node with
            | none => none
            | some node_descent =>
                ascend D st fuel parent
                  (step_direction working_direction node_descent)
                  (neighbor_descents ++ [mirror_descent node_descent
                    working_direction])

/-- `TreeNeighbourBehaviour::find_shared_parent` (default implementation):
`none` when the ascent exits the root with a nonzero direction. -/
def find_shared_parent (D : Nat) (st : Tree) (node_key : Nat)
    (direction : List Int) : Option (Nat × List (List Int)) :=
  match ascend D st (st.next_key + 1) node_key direction [] with
  | none => none
  | some (node, working_direction, neighbor_descents) =>
      if working_direction.all (· = 0) then some (node, neighbor_descents)
      else none

/-- The descent transforms of the planet tree (`NeighborTransform`). -/
inductive NeighborTransform where
  | Mirror (axis : Nat)
  | Rotate (clockwise : Bool)
  | RotateMirror (clockwise : Bool) (axis : Nat)
  | NoneT
deriving DecidableEq, Repr

/-- `simple_rotate`: ±90 degree rotation of a 2D integer coordinate. -/
def simple_rotate (clockwise : Bool) (coord : List Int) : List Int :=
  let c := if clockwise then coord.set 0 (-(coord.getD 0 0)) else
    coord.set 1 (-(coord.getD 1 0))
  [c.getD 1 0, c.getD 0 0]

/-- `mirror`: flip one component of a 2D integer coordinate. -/
def mirror (index : Nat) (coord : List Int) : List Int :=
  coord.set index (-(coord.getD index 0))

/-- `simple_rotate` on rational coordinates. -/
def simple_rotate_float (clockwise : Bool) (coord : List ℚ) : List ℚ :=
  let c := if clockwise then coord.set 0 (-(coord.getD 0 0)) else
    coord.set 1 (-(coord.getD 1 0))
  [c.getD 1 0, c.getD 0 0]

/-- `mirror` on rational coordinates. -/
def mirror_float (index : Nat) (coord : List ℚ) : List ℚ :=
  coord.set index (-(coord.getD index 0))

/-- `transform_from_dir_to_dir`: the fixed cube-edge transform table. -/
def transform_from_dir_to_dir (from_dir to_dir : Direction) : NeighborTransform :=
  match from_dir, to_dir with
  | .xpos, .xneg => .Mirror 0
  | .xpos, .ypos => .Mirror 0
  | .xpos, .zneg => .RotateMirror true 1
  | .xpos, .zpos => .Rotate false
  | .xneg, .xpos => .Mirror 0
  | .xneg, .yneg => .Mirror 0
  | .xneg, .zneg => .Rotate false
  | .xneg, .zpos => .RotateMirror true 1
  | .ypos, .xpos => .Mirror 0
  | .ypos, .yneg => .Mirror 1
  | .ypos, .zpos => .Mirror 1
  | .yneg, .xneg => .Mirror 0
  | .yneg, .ypos => .Mirror 1
  | .yneg, .zneg => .Mirror 1
  | .zpos, .xneg => .RotateMirror true 1
  | .zpos, .xpos => .Rotate true
  | .zpos, .ypos => .Mirror 1
  | .zpos, .zneg => .Mirror 1
  | .zneg, .xneg => .Rotate true
  | .zneg, .xpos => .RotateMirror true 1
  | .zneg, .yneg => .Mirror 1
  | .zneg, .zpos => .Mirror 1
  | _, _ => .NoneT

/-- `map_to_neighbor`: which face a nonzero leftover direction leads to from
a given face (the Rust `match` tests `[-1,_]`, `[1,_]`, `[_,-1]`, `[_,1]` in
that order). -/
def map_to_neighbor (from_dir : Direction) (dir : List Int) :
    Direction × NeighborTransform :=
  let d0 := dir.getD 0 0
  let d1 := dir.getD 1 0
  let to_dir : Direction :=
    match from_dir with
    | .xpos | .xneg =>
        if d0 = -1 then .yneg else if d0 = 1 then .ypos
        else if d1 = -1 then .zneg else if d1 = 1 then .zpos else .dnone
    | .ypos | .yneg =>
        if d0 = -1 then .xneg else if d0 = 1 then .xpos
        else if d1 = -1 then .zneg else if d1 = 1 then .zpos else .dnone
    | .zpos | .zneg =>
        if d0 = -1 then .xneg else if d0 = 1 then .xpos
        else if d1 = -1 then .yneg else if d1 = 1 then .ypos else .dnone
    | .dnone => .dnone
  (to_dir, transform_from_dir_to_dir from_dir to_dir)

/-- `map_from_dir_to_dir`: re-express an integer direction given on one face
in the frame of another face. -/
def map_from_dir_to_dir (from_dir to_dir : Direction) (dir : List Int) :
    List Int :=
  if from_dir ≠ to_dir then
    match transform_from_dir_to_dir from_dir to_dir with
    | .Mirror axis => mirror axis dir
    | .Rotate clockwise => simple_rotate clockwise dir
    | .RotateMirror clockwise axis => mirror axis (simple_rotate clockwise dir)
    | .NoneT => dir
  else dir

/-- `map_from_dir_to_dir_float`: the same re-expression for rational
coordinates. -/
def map_from_dir_to_dir_float (from_dir to_dir : Direction) (dir : List ℚ) :
    List ℚ :=
  if from_dir ≠ to_dir then
    match transform_from_dir_to_dir from_dir to_dir with
    | .Mirror axis => mirror_float axis dir
    | .Rotate clockwise => simple_rotate_float clockwise dir
    | .RotateMirror clockwise axis =>
        mirror_float axis (simple_rotate_float clockwise dir)
    | .NoneT => dir
  else dir

/-- Apply a `NeighborTransform` to every recorded descent (the
`iter_mut().for_each` rewrites in `PlanetTree::find_shared_parent`). -/
def apply_transform (t : NeighborTransform) (ds : List (List Int)) :
    List (List Int) :=
  match t with
  | .Mirror axis => ds.map (mirror axis)
  | .Rotate clockwise => ds.map (simple_rotate clockwise)
  | .RotateMirror clockwise axis =>
      ds.map (fun d => mirror axis (simple_rotate clockwise d))
  | .NoneT => ds

/-- `PlanetTree::find_shared_parent`: as the generic ascent, but a leftover
nonzero direction transfers the query to the adjacent cube face, rewriting
the recorded descents by the edge transform. -/
def planet_find_shared_parent (st : Tree) (node_key : Nat)
    (direction : List Int) : Option (Nat × List (List Int)) :=
  match ascend 2 st (st.next_key + 1) node_key direction [] with
  | none => none
  | some (node, working_direction, neighbor_descents) =>
      if working_direction.all (· = 0) then some (node, neighbor_descents)
      else
        let r := map_to_neighbor (getU st node).direction working_direction
        some (st.roots.getD r.1.toIdx 0, apply_transform r.2 neighbor_descents)

/-- `TreeNeighbourBehaviour::neighbour_descent`: follow the recorded descents
(in reverse) from the shared parent, stopping early at a leaf. -/
def neighbour_descent_aux (st : Tree) : Nat → List (List Int) → Nat
  | node_key, [] => node_key
  | node_key, nd :: rest =>
      match get_child (getU st node_key) nd with
      | some child_node =>
          if (getU st child_node).children.isSome then
            neighbour_descent_aux st child_node rest
          else child_node
      | none => neighbour_descent_aux st node_key rest

/-- `TreeNeighbourBehaviour::neighbour_descent` (iterates `descents` in
reverse order). -/
def neighbour_descent (st : Tree) (node_key : Nat)
    (descents : List (List Int)) : Nat :=
  neighbour_descent_aux st node_key descents.reverse

/-- The work-list loop of `bordering_neighbours`: collect all leaves reached
by repeatedly stepping into the children whose octants lie in
`child_directions`. -/
def bordering_loop (st : Tree) (child_directions : List (List Int)) :
    Nat → List Nat → List Nat → Option (List Nat)
  | _, [], neighbors => some neighbors
  | 0, _ :: _, _ => none
  | fuel + 1, pending_node_key :: rest, neighbors =>
      match (getU st pending_node_key).children with
      | some _ =>
          bordering_loop st child_directions fuel
            (((child_directions.filterMap
                (get_child (getU st pending_node_key))).reverse) ++ rest)
            neighbors
      | none =>
          bordering_loop st child_directions fuel rest
            (neighbors ++ [pending_node_key])

/-- `TreeNeighbourBehaviour::bordering_neighbours`: all leaves of the
neighbour branch lying on the face opposite to `direction` (note the
direction is inverted before computing the child octants). -/
def bordering_neighbours (D : Nat) (st : Tree) (neighbour_node_key : Nat)
    (direction : List Int) : Option (List Nat) :=
  let child_direction := direction.map (· * (-1))
  bordering_loop st (child_positions_in_direction D child_direction)
    (st.nodes.length + 2) [neighbour_node_key] []

/-- `TreeNeighbourBehaviour::get_neighbors`, parameterised by the
`find_shared_parent` implementation (the planet tree overrides it). -/
def get_neighbors_with
    (fsp : Tree → Nat → List Int → Option (Nat × List (List Int)))
    (D : Nat) (st : Tree) (node_key : Nat) (direction : List Int) :
    Option (List Nat) :=
  match fsp st node_key direction with
  | none => some []
  | some (node, neighbor_descents) =>
      let node1 := neighbour_descent st node neighbor_descents
      if !(getU st node1).children.isSome then some [node1]
      else bordering_neighbours D st node1 direction

/-- `get_neighbors` for the generic `NTree` (quad/oct). -/
def get_neighbors (D : Nat) (st : Tree) (node_key : Nat)
    (direction : List Int) : Option (List Nat) :=
  get_neighbors_with (find_shared_parent D) D st node_key direction

/-- `get_neighbors` for the `PlanetTree` (same default body, overridden
`find_shared_parent`). -/
def planet_get_neighbors (st : Tree) (node_key : Nat)
    (direction : List Int) : Option (List Nat) :=
  get_neighbors_with planet_find_shared_parent 2 st node_key direction

/-- The `visited_nodes` hash map of the update pass, as an association
list.  Its contents are collected and then dropped by the source. -/
abbrev Visited := List (Nat × NeighborSizeEvent)

/-- `HashMap::entry(k).or_insert(v)`. -/
def visited_or_insert (vs : Visited) (k : Nat) (v : NeighborSizeEvent) :
    Visited :=
  if (vs.find? (fun e => e.1 = k)).isSome then vs else vs ++ [(k, v)]

/-- `HashMap::insert(k, v)` (replacing any previous entry). -/
def visited_insert (vs : Visited) (k : Nat) (v : NeighborSizeEvent) :
    Visited :=
  (vs.filter (fun e => e.1 ≠ k)) ++ [(k, v)]

/-- `TreeNeighbourBehaviour::update_neighbor_size`: correct the neighbour's
stored border size for the face `direction` (given from the neighbour's
point of view). -/
def update_neighbor_size (st : Tree) (neighbour_key : Nat)
    (subject_size : ℚ) (direction : List Int) : NeighborSizeEvent × Tree :=
  let neighbour := getU st neighbour_key
  let neighbor_size := neighbour.size
  match neighbor_index direction with
  | none => (NeighborSizeEvent.NoneEv, st)
  | some neighbor_size_index =>
      let neighbors_border_size :=
        neighbour.neighbor_sizes.getD neighbor_size_index 0
      if neighbors_border_size ≠ subject_size then
        if neighbor_size < subject_size then
          (NeighborSizeEvent.ChangedSize,
           { st with nodes := updateA st.nodes neighbour_key (fun n =>
              { n with neighbor_sizes :=
                  n.neighbor_sizes.set neighbor_size_index subject_size }) })
        else if neighbors_border_size ≠ neighbor_size then
          (NeighborSizeEvent.ChangedSize,
           { st with nodes := updateA st.nodes neighbour_key (fun n =>
              { n with neighbor_sizes :=
                  n.neighbor_sizes.set neighbor_size_index neighbor_size }) })
        else (NeighborSizeEvent.NoneEv, st)
      else (NeighborSizeEvent.NoneEv, st)

/-- `TreeNeighbourBehaviour::update_neighbor_sizes` (default
implementation): refresh the stored sizes of `node_key`'s neighbours and
recompute `node_key`'s own `neighbor_sizes` entries. -/
def update_neighbor_sizes (D : Nat) (st : Tree) (node_key : Nat)
    (visited : Visited) : Tree × Visited :=
  let node_size := (getU st node_key).size
  let r := (all_neighbor_directions D).foldl
    (fun (acc : Tree × Visited × List (List Int × ℚ)) direction =>
      let opposite_dir := direction.map (· * (-1))
      ((get_neighbors D acc.1 node_key direction).getD []).foldl
        (fun (acc2 : Tree × Visited × List (List Int × ℚ)) neighbour_key =>
          let u := update_neighbor_size acc2.1 neighbour_key node_size
            opposite_dir
          let visited1 :=
            if u.1 = NeighborSizeEvent.ChangedSize then
              visited_or_insert acc2.2.1 neighbour_key
                NeighborSizeEvent.ChangedSize
            else acc2.2.1
          let neighbour_size := (getU u.2 neighbour_key).size
          (u.2, visited1,
           acc2.2.2 ++ [(direction,
             if neighbour_size < node_size then node_size
             else neighbour_size)]))
        acc)
    (st, visited, [])
  let st1 := { r.1 with nodes := updateA r.1.nodes node_key (fun n =>
    r.2.2.foldl (fun m ds =>
      match neighbor_index ds.1 with
      | some index =>
          { m with neighbor_sizes := m.neighbor_sizes.set index ds.2 }
      | none => m) n) }
  (st1, visited_insert r.2.1 node_key NeighborSizeEvent.New)

/-- `TreeNeighbourBehaviour::update_neighbors_from_events` (default
implementation): one `update_neighbor_sizes` call per `Grown` child and per
`Shrunk` retained node.  The source never pushes `NeighborSizesChanged`
events; the visited map is built and then dropped. -/
def update_neighbors_from_events (D : Nat) (st : Tree)
    (events : List TreeEvent) : Tree :=
  (events.foldl (fun (acc : Tree × Visited) event =>
      match event with
      | TreeEvent.Grown _ children =>
          children.foldl (fun acc2 child =>
            update_neighbor_sizes D acc2.1 child acc2.2) acc
      | TreeEvent.Shrunk retained _ =>
          update_neighbor_sizes D acc.1 retained acc.2
      | _ => acc)
    (st, [])).1

/-- `TreeNeighbourBehaviour::insert_and_update_neighbors` for the generic
`NTree` (quad/oct). -/
def insert_and_update_neighbors (D : Nat) (fuel : Nat) (f : Node → Bool)
    (st : Tree) : Option (List TreeEvent × Tree) :=
  (insertN D fuel f st).map fun r =>
    (r.1, update_neighbors_from_events D r.2 r.1)

/-- `PlanetTree::new`: six face roots in `[X-, X+, Y-, Y+, Z-, Z+]` order;
no validation of the inputs. -/
def planet_new (min_size size : ℚ) (pos : List ℚ) : Tree :=
  let r := ([[-1, 0, 0], [1, 0, 0], [0, -1, 0], [0, 1, 0], [0, 0, -1],
      [0, 0, 1]] : List (List Int)).foldl
    (fun (acc : Tree × List Nat) direction =>
      let world_pos := List.zipWith (fun p (d : Int) => p + (d : ℚ) * size / 2)
        pos direction
      let dir := directionFromVec direction
      let local_pos := map_from_dir_and_world_pos dir world_pos
      let kt := insert_node acc.1 (planetNodeNew size local_pos world_pos dir)
      (kt.2, acc.2 ++ [kt.1]))
    ({ nodes := [], next_key := 0, min_size := min_size, roots := [] }, [])
  { r.1 with roots := r.2 }

/--
Modelled from the spec (§4.5/§4.6): `PlanetTree::update_neighbor_sizes`.
The source's override calls a four-argument `update_neighbor_size` and a
`neighbor_offsets_mut` node field that are absent from the provided sources
(`tree_traits.rs` declares a three-argument `update_neighbor_size` and
`PlanetTreeNode` has no offsets storage).  Following the spec, the
neighbour's slot is updated through the trait rule after re-expressing the
opposite direction in the neighbour's face frame with `map_from_dir_to_dir`,
and only `neighbor_sizes` entries are written.
-/
def planet_update_neighbor_sizes (st : Tree) (node_key : Nat)
    (visited : Visited) : Tree × Visited :=
  let node_size := (getU st node_key).size
  let node_dir := (getU st node_key).direction
  let r := (all_neighbor_directions 2).foldl
    (fun (acc : Tree × Visited × List (List Int × ℚ)) direction =>
      let opposite_dir := direction.map (· * (-1))
      ((planet_get_neighbors acc.1 node_key direction).getD []).foldl
        (fun (acc2 : Tree × Visited × List (List Int × ℚ)) neighbour_key =>
          let neighbour_dir := (getU acc2.1 neighbour_key).direction
          let neighbour_opposite_dir :=
            map_from_dir_to_dir node_dir neighbour_dir opposite_dir
          let u := update_neighbor_size acc2.1 neighbour_key node_size
            neighbour_opposite_dir
          let visited1 :=
            if u.1 = NeighborSizeEvent.ChangedSize then
              visited_or_insert acc2.2.1 neighbour_key
                NeighborSizeEvent.ChangedSize
            else acc2.2.1
          let neighbour_size := (getU u.2 neighbour_key).size
          (u.2, visited1,
           acc2.2.2 ++ [(direction,
             if neighbour_size < node_size then node_size
             else neighbour_size)]))
        acc)
    (st, visited, [])
  let st1 := { r.1 with nodes := updateA r.1.nodes node_key (fun n =>
    r.2.2.foldl (fun m ds =>
      match neighbor_index ds.1 with
      | some index =>
          { m with neighbor_sizes := m.neighbor_sizes.set index ds.2 }
      | none => m) n) }
  (st1, visited_insert r.2.1 node_key NeighborSizeEvent.New)

/-- The planet tree's `update_neighbors_from_events`, built on the modelled
`planet_update_neighbor_sizes`. -/
def planet_update_neighbors_from_events (st : Tree)
    (events : List TreeEvent) : Tree :=
  (events.foldl (fun (acc : Tree × Visited) event =>
      match event with
      | TreeEvent.Grown _ children =>
          children.foldl (fun acc2 child =>
            planet_update_neighbor_sizes acc2.1 child acc2.2) acc
      | TreeEvent.Shrunk retained _ =>
          planet_update_neighbor_sizes acc.1 retained acc.2
      | _ => acc)
    (st, [])).1

/-- `insert_and_update_neighbors` for the `PlanetTree`. -/
def planet_insert_and_update_neighbors (fuel : Nat) (f : Node → Bool)
    (st : Tree) : Option (List TreeEvent × Tree) :=
  (insertP fuel f st).map fun r =>
    (r.1, planet_update_neighbors_from_events r.2 r.1)

/-- The states of a quad- or oct-tree reachable from `ntree_new` by
completed `insert` / `insert_and_update_neighbors` calls. -/
inductive ReachN (D : Nat) (min_size size : ℚ) (pos : List ℚ) : Tree → Prop
  | init : ReachN D min_size size pos (ntree_new D min_size size pos)
  | step_insert {st st1 fuel f ev} : ReachN D min_size size pos st →
      insertN D fuel f st = some (ev, st1) → ReachN D min_size size pos st1
  | step_update {st st1 fuel f ev} : ReachN D min_size size pos st →
      insert_and_update_neighbors D fuel f st = some (ev, st1) →
      ReachN D min_size size pos st1

/-- The states of a planet tree reachable from `planet_new` by completed
`insert` / `insert_and_update_neighbors` calls. -/
inductive ReachP (min_size size : ℚ) (pos : List ℚ) : Tree → Prop
  | init : ReachP min_size size pos (planet_new min_size size pos)
  | step_insert {st st1 fuel f ev} : ReachP min_size size pos st →
      insertP fuel f st = some (ev, st1) → ReachP min_size size pos st1
  | step_update {st st1 fuel f ev} : ReachP min_size size pos st →
      planet_insert_and_update_neighbors fuel f st = some (ev, st1) →
      ReachP min_size size pos st1

/-! ### Proof infrastructure: well-formedness of arena trees -/

/-- Keys are unique and below the allocation counter.  This holds for every
state a slotmap-backed tree can be in. -/
def ArenaInv (st : Tree) : Prop :=
  (st.nodes.map Prod.fst).Nodup ∧ ∀ k ∈ st.nodes.map Prod.fst, k < st.next_key

/--
A well-formed subtree rooted at `k` inside an arena whose allocation counter
is `nk`: the node is live, child keys are strictly larger than the parent key
and below `nk` (keys are allocated in increasing order), and `ks` lists the
keys of the whole subtree.
-/
inductive Subtree (ns : Arena) (nk : Nat) : Nat → List Nat → Prop where
  | leaf : ∀ {k n}, lookupA ns k = some n → n.children = none →
      Subtree ns nk k [k]
  | branch : ∀ {k n cs css}, lookupA ns k = some n → n.children = some cs →
      (∀ c ∈ cs, k < c ∧ c < nk) → cs.length = css.length →
      (∀ p ∈ cs.zip css, Subtree ns nk p.1 p.2) →
      Subtree ns nk k (k :: css.flatten)

/-- A predicate on nodes that only reads the immutable geometry fields
(`size`, `pos`, `direction`, `world_pos`) — in particular it cannot observe
`has_children`, the parent link or the neighbour bookkeeping. -/
def GeomPred (p : Node → Bool) : Prop :=
  ∀ n m : Node, n.size = m.size → n.pos = m.pos → n.direction = m.direction →
    n.world_pos = m.world_pos → p n = p m

/--
A refinement fixpoint of the predicate `p`: re-running the insert pass over
`k` performs no mutation.  Leaves must either fail `p` or sit at the
refinement floor; internal nodes must satisfy `p` and have fixpoint children
(with well-ordered keys).
-/
inductive Fixedpt (p : Node → Bool) (st : Tree) : Nat → Prop where
  | leaf : ∀ {k}, (getU st k).children = none →
      (p (getU st k) = true → ¬ st.min_size < (getU st k).size) →
      Fixedpt p st k
  | branch : ∀ {k cs}, (getU st k).children = some cs →
      p (getU st k) = true →
      (∀ c ∈ cs, k < c ∧ c < st.next_key) →
      (∀ c ∈ cs, Fixedpt p st c) →
      Fixedpt p st k

/-- The number of work-list pops a traversal of the subtree at `k`
performs. -/
inductive Weighs (st : Tree) : Nat → Nat → Prop where
  | leaf : ∀ {k}, (getU st k).children = none → Weighs st k 1
  | branch : ∀ {k cs ws}, (getU st k).children = some cs →
      cs.length = ws.length →
      (∀ p ∈ cs.zip ws, Weighs st p.1 p.2) → Weighs st k (1 + ws.sum)

/-- A node with its `neighbor_sizes` erased; two nodes with the same `strip`
agree on everything the refinement pass reads. -/
def Node.strip (n : Node) : Node := { n with neighbor_sizes := [] }

/-- Two tree states that differ at most in some nodes' `neighbor_sizes`
(what a neighbour-bookkeeping pass may change). -/
def SameStruct (st st' : Tree) : Prop :=
  st'.next_key = st.next_key ∧ st'.min_size = st.min_size ∧
  st'.roots = st.roots ∧
  st'.nodes.map Prod.fst = st.nodes.map Prod.fst ∧
  ∀ k, (lookupA st'.nodes k).map Node.strip = (lookupA st.nodes k).map Node.strip

/-- The fresh arena entries appended by the insertion loop of
`create_children`: consecutive keys from `nk` paired with the nodes built
from the child indices. -/
def fresh_entries (g : Nat → Node) : Nat → List Nat → List (Nat × Node)
  | _, [] => []
  | nk, i :: tl => (nk, g i) :: fresh_entries g (nk + 1) tl

/--
The behaviour shared by `create_children` and `planet_create_children`, as
used by the insert-loop proofs: some positive number `m` of children is
created on consecutive fresh keys, the parent's `children` field is set to
those keys, other nodes are untouched, and every new node is a leaf of half
the parent's size pointing back at the parent.
-/
def CCSpec (cc : Tree → Nat → List Nat × Tree) : Prop :=
  ∀ st k, ∃ m, 0 < m ∧
    (cc st k).1 = List.range' st.next_key m ∧
    (cc st k).2.next_key = st.next_key + m ∧
    (cc st k).2.min_size = st.min_size ∧
    (cc st k).2.roots = st.roots ∧
    (cc st k).2.nodes.map Prod.fst =
      st.nodes.map Prod.fst ++ List.range' st.next_key m ∧
    (∀ j, j < st.next_key → j ≠ k →
      lookupA (cc st k).2.nodes j = lookupA st.nodes j) ∧
    (k < st.next_key → lookupA (cc st k).2.nodes k =
      (lookupA st.nodes k).map fun n =>
        { n with children := some (List.range' st.next_key m) }) ∧
    ((∀ j ∈ st.nodes.map Prod.fst, j < st.next_key) → k < st.next_key →
      ∀ i, i < m → ∃ nn, lookupA (cc st k).2.nodes (st.next_key + i) = some nn ∧
        nn.children = none ∧ nn.parent = some k ∧
        nn.size = (getU st k).size / 2)

/-! ### Arena lemmas -/

theorem lookupA_nil (k : Nat) : lookupA [] k = none := rfl

theorem lookupA_cons (k' : Nat) (n : Node) (ns : Arena) (k : Nat) :
    lookupA ((k', n) :: ns) k = if k' = k then some n else lookupA ns k := by
  by_cases h : k' = k <;> simp [lookupA, List.find?_cons, h]

theorem lookupA_eq_none {ns : Arena} {k : Nat} :
    lookupA ns k = none ↔ k ∉ ns.map Prod.fst := by
  induction ns with
  | nil => simp [lookupA_nil]
  | cons kn tl ih =>
      obtain ⟨a, b⟩ := kn
      by_cases h : a = k
      · simp [lookupA_cons, h]
      · simp only [lookupA_cons, if_neg h, ih, List.map_cons, List.mem_cons]
        constructor
        · intro hh hc
          exact hc.elim (fun he => h he.symm) hh
        · intro hh hk
          exact hh (Or.inr hk)

theorem lookupA_isSome {ns : Arena} {k : Nat} :
    (lookupA ns k).isSome ↔ k ∈ ns.map Prod.fst := by
  rw [← Decidable.not_iff_not, Option.not_isSome_iff_eq_none, lookupA_eq_none]

theorem lookupA_mem {ns : Arena} {k : Nat} {n : Node}
    (h : lookupA ns k = some n) : (k, n) ∈ ns := by
  induction ns with
  | nil => simp [lookupA_nil] at h
  | cons kn tl ih =>
      obtain ⟨a, b⟩ := kn
      by_cases hk : a = k
      · subst hk
        simp [lookupA_cons] at h
        simp [h]
      · simp [lookupA_cons, hk] at h
        exact List.mem_cons_of_mem _ (ih h)

theorem updateA_map_fst (ns : Arena) (k : Nat) (f : Node → Node) :
    (updateA ns k f).map Prod.fst = ns.map Prod.fst := by
  induction ns with
  | nil => rfl
  | cons kn tl ih =>
      by_cases h : kn.1 = k <;> simp [updateA, h] at ih ⊢ <;>
        simpa [updateA] using ih

theorem updateA_cons (a : Nat) (b : Node) (tl : Arena) (k : Nat)
    (f : Node → Node) :
    updateA ((a, b) :: tl) k f =
      (if a = k then (a, f b) else (a, b)) :: updateA tl k f := by
  by_cases h : a = k <;> simp [updateA, h]

theorem lookupA_updateA (ns : Arena) (k : Nat) (f : Node → Node) (j : Nat) :
    lookupA (updateA ns k f) j =
      if j = k then (lookupA ns k).map f else lookupA ns j := by
  induction ns with
  | nil => simp [updateA, lookupA_nil]
  | cons kn tl ih =>
      obtain ⟨a, b⟩ := kn
      rw [updateA_cons]
      by_cases ha : a = k
      · subst ha
        by_cases hj : j = a
        · subst hj
          simp [lookupA_cons, ih]
        · have hj2 : ¬a = j := fun h => hj h.symm
          simp [lookupA_cons, hj, hj2, ih]
      · by_cases hj : j = a
        · subst hj
          have ha2 : ¬j = k := fun h => ha h
          simp [lookupA_cons, ha, ha2, ih]
        · have hj2 : ¬a = j := fun h => hj h.symm
          simp [lookupA_cons, ha, hj2, ih]

theorem removeA_map_fst (ns : Arena) (k : Nat) :
    (removeA ns k).map Prod.fst = (ns.map Prod.fst).filter (· ≠ k) := by
  induction ns with
  | nil => rfl
  | cons kn tl ih =>
      by_cases h : kn.1 = k <;>
        simp [removeA, List.filter_cons, h] at ih ⊢ <;> simpa [removeA] using ih

theorem removeA_cons (a : Nat) (b : Node) (tl : Arena) (k : Nat) :
    removeA ((a, b) :: tl) k =
      if a = k then removeA tl k else (a, b) :: removeA tl k := by
  by_cases h : a = k <;> simp [removeA, List.filter_cons, h]

theorem lookupA_removeA (ns : Arena) (k j : Nat) :
    lookupA (removeA ns k) j = if j = k then none else lookupA ns j := by
  induction ns with
  | nil => simp [removeA, lookupA_nil]
  | cons kn tl ih =>
      obtain ⟨a, b⟩ := kn
      rw [removeA_cons]
      by_cases ha : a = k
      · subst ha
        by_cases hj : j = a
        · subst hj
          simp [lookupA_cons, ih]
        · have hj2 : ¬a = j := fun h => hj h.symm
          simp [lookupA_cons, hj, hj2, ih]
      · by_cases hj : j = a
        · subst hj
          have ha2 : ¬j = k := fun h => ha h
          simp [lookupA_cons, ha, ha2, ih]
        · have hj2 : ¬a = j := fun h => hj h.symm
          simp [lookupA_cons, ha, hj2, ih]

theorem lookupA_append (xs ys : Arena) (j : Nat) :
    lookupA (xs ++ ys) j = (lookupA xs j).or (lookupA ys j) := by
  simp only [lookupA, List.find?_append]
  cases List.find? (fun kn => kn.1 = j) xs <;> simp

theorem fresh_entries_map_fst (g : Nat → Node) (l : List Nat) :
    ∀ nk, (fresh_entries g nk l).map Prod.fst = List.range' nk l.length := by
  induction l with
  | nil => intro nk; rfl
  | cons i tl ih =>
      intro nk
      simp only [fresh_entries, List.map_cons, List.length_cons, ih,
        List.range'_succ]

theorem fresh_entries_lookup_lt (g : Nat → Node) (l : List Nat) (nk j : Nat)
    (h : j < nk) : lookupA (fresh_entries g nk l) j = none := by
  rw [lookupA_eq_none, fresh_entries_map_fst]
  intro hm
  rw [List.mem_range'_1] at hm
  omega

theorem fresh_entries_lookup (g : Nat → Node) (l : List Nat) :
    ∀ nk i, (h : i < l.length) →
      lookupA (fresh_entries g nk l) (nk + i) = some (g (l.get ⟨i, h⟩)) := by
  induction l with
  | nil => intro nk i h; simp at h
  | cons a tl ih =>
      intro nk i h
      match i with
      | 0 => simp [fresh_entries, lookupA_cons]
      | i + 1 =>
          have hne : ¬nk = nk + (i + 1) := by omega
          have : nk + (i + 1) = (nk + 1) + i := by omega
          rw [fresh_entries, lookupA_cons, if_neg hne, this,
            ih (nk + 1) i (by simpa using h)]
          rfl

theorem insert_fold_eq (g : Nat → Node) (l : List Nat) :
    ∀ (ks0 : List Nat) (t0 : Tree),
    l.foldl (fun (acc : List Nat × Tree) child_index =>
        let kt := insert_node acc.2 (g child_index)
        (acc.1 ++ [kt.1], kt.2)) (ks0, t0) =
      (ks0 ++ List.range' t0.next_key l.length,
       { t0 with nodes := t0.nodes ++ fresh_entries g t0.next_key l,
                 next_key := t0.next_key + l.length }) := by
  induction l with
  | nil => intro ks0 t0; simp [fresh_entries]
  | cons i tl ih =>
      intro ks0 t0
      rw [List.foldl_cons, ih]
      have hnk : t0.next_key + 1 + tl.length = t0.next_key + (tl.length + 1) := by
        omega
      simp [insert_node, List.range'_succ, fresh_entries, List.append_assoc,
        List.singleton_append, hnk]

theorem create_children_eq (D : Nat) (st : Tree) (parent_key : Nat) :
    create_children D st parent_key =
      (List.range' st.next_key (2 ^ D),
       { st with
          nodes := updateA (st.nodes ++ fresh_entries
              (make_child D parent_key (getU st parent_key)) st.next_key
              (List.range (2 ^ D))) parent_key
              (fun n => { n with
                 children := some (List.range' st.next_key (2 ^ D)) }),
          next_key := st.next_key + 2 ^ D }) := by
  simp only [create_children]
  rw [insert_fold_eq]
  simp [List.length_range]

theorem planet_create_children_eq (st : Tree) (parent_key : Nat) :
    planet_create_children st parent_key =
      (List.range' st.next_key (2 ^ 2),
       { st with
          nodes := updateA (st.nodes ++ fresh_entries
              (planet_make_child parent_key (getU st parent_key)) st.next_key
              (List.range (2 ^ 2))) parent_key
              (fun n => { n with
                 children := some (List.range' st.next_key (2 ^ 2)) }),
          next_key := st.next_key + 2 ^ 2 }) := by
  simp only [planet_create_children]
  rw [insert_fold_eq]
  simp [List.length_range]

theorem ccspec_core (st : Tree) (parent_key : Nat) (m : Nat) (hm : 0 < m)
    (g : Nat → Node)
    (hg : ∀ i, (g i).children = none ∧ (g i).parent = some parent_key ∧
      (g i).size = (getU st parent_key).size / 2)
    (ns' : Arena)
    (hns : ns' = updateA (st.nodes ++ fresh_entries g st.next_key
      (List.range m)) parent_key
      (fun n => { n with children := some (List.range' st.next_key m) })) :
    ns'.map Prod.fst = st.nodes.map Prod.fst ++ List.range' st.next_key m ∧
    (∀ j, j < st.next_key → j ≠ parent_key →
      lookupA ns' j = lookupA st.nodes j) ∧
    (parent_key < st.next_key → lookupA ns' parent_key =
      (lookupA st.nodes parent_key).map fun n =>
        { n with children := some (List.range' st.next_key m) }) ∧
    ((∀ j ∈ st.nodes.map Prod.fst, j < st.next_key) →
      parent_key < st.next_key →
      ∀ i, i < m → ∃ nn, lookupA ns' (st.next_key + i) = some nn ∧
        nn.children = none ∧ nn.parent = some parent_key ∧
        nn.size = (getU st parent_key).size / 2) := by
  subst hns
  refine ⟨?_, ?_, ?_, ?_⟩
  · rw [updateA_map_fst, List.map_append, fresh_entries_map_fst,
      List.length_range]
  · intro j hj hjk
    rw [lookupA_updateA, if_neg hjk, lookupA_append,
      fresh_entries_lookup_lt _ _ _ _ hj, Option.or_none]
  · intro hk
    rw [lookupA_updateA, if_pos rfl, lookupA_append,
      fresh_entries_lookup_lt _ _ _ _ hk, Option.or_none]
  · intro hbound hk i hi
    have hne : st.next_key + i ≠ parent_key := by omega
    have hstnone : lookupA st.nodes (st.next_key + i) = none := by
      rw [lookupA_eq_none]
      intro hmem
      exact absurd (hbound _ hmem) (by omega)
    have hlen : i < (List.range m).length := by simpa [List.length_range]
    refine ⟨g i, ?_, (hg i).1, (hg i).2.1, (hg i).2.2⟩
    rw [lookupA_updateA, if_neg hne, lookupA_append, hstnone, Option.none_or,
      fresh_entries_lookup g (List.range m) st.next_key i hlen,
      List.get_range]

theorem ccspec_create_children (D : Nat) : CCSpec (create_children D) := by
  intro st k
  refine ⟨2 ^ D, Nat.two_pow_pos D, ?_, ?_, ?_, ?_, ?_⟩
  · rw [create_children_eq]
  · rw [create_children_eq]
  · rw [create_children_eq]
  · rw [create_children_eq]
  · have h := ccspec_core st k (2 ^ D) (Nat.two_pow_pos D)
      (make_child D k (getU st k))
      (fun i => by simp [make_child, from_bounds]) _ rfl
    rw [create_children_eq]
    exact ⟨h.1, h.2.1, h.2.2.1, h.2.2.2⟩

theorem ccspec_planet_create_children : CCSpec planet_create_children := by
  intro st k
  refine ⟨2 ^ 2, Nat.two_pow_pos 2, ?_, ?_, ?_, ?_, ?_⟩
  · rw [planet_create_children_eq]
  · rw [planet_create_children_eq]
  · rw [planet_create_children_eq]
  · rw [planet_create_children_eq]
  · have h := ccspec_core st k (2 ^ 2) (Nat.two_pow_pos 2)
      (planet_make_child k (getU st k))
      (fun i => by simp [planet_make_child, planetNodeNew]) _ rfl
    rw [planet_create_children_eq]
    exact ⟨h.1, h.2.1, h.2.2.1, h.2.2.2⟩

/-! ### Subtree lemmas -/

theorem mem_zip_right {α β : Type _} : ∀ {l1 : List α} {l2 : List β},
    l1.length = l2.length → ∀ {b}, b ∈ l2 → ∃ a, (a, b) ∈ l1.zip l2 := by
  intro l1
  induction l1 with
  | nil => intro l2 hlen b hb; cases l2 <;> simp_all
  | cons a tl ih =>
      intro l2 hlen b hb
      cases l2 with
      | nil => simp at hb
      | cons b0 tl2 =>
          rcases List.mem_cons.mp hb with hb1 | hb2
          · exact ⟨a, by simp [hb1]⟩
          · obtain ⟨a', ha'⟩ := ih (by simpa using hlen) hb2
            exact ⟨a', by simp [ha']⟩

theorem subtree_head {ns : Arena} {nk k : Nat} {ks : List Nat}
    (h : Subtree ns nk k ks) : ∃ tl, ks = k :: tl := by
  cases h with
  | leaf _ _ => exact ⟨[], rfl⟩
  | branch _ _ _ _ _ => exact ⟨_, rfl⟩

theorem subtree_ge {ns : Arena} {nk : Nat} : ∀ {k ks},
    Subtree ns nk k ks → ∀ j ∈ ks, k ≤ j := by
  intro k ks h
  induction h with
  | leaf _ _ =>
      intro j hj
      simp at hj
      omega
  | branch hlook hch hb hlen hsub ih =>
      intro j hj
      rcases List.mem_cons.mp hj with hj1 | hj2
      · omega
      · obtain ⟨l, hl, hjl⟩ := List.mem_flatten.mp hj2
        obtain ⟨c, hcz⟩ := mem_zip_right hlen hl
        have hc := (List.mem_zip hcz).1
        have := ih (c, l) hcz j hjl
        have := (hb c hc).1
        omega

theorem subtree_lt_nk {ns : Arena} {nk : Nat} : ∀ {k ks},
    Subtree ns nk k ks → ∀ j ∈ ks, j ≠ k → j < nk := by
  intro k ks h
  induction h with
  | leaf _ _ =>
      intro j hj hne
      simp at hj
      exact absurd hj hne
  | branch hlook hch hb hlen hsub ih =>
      intro j hj hne
      rcases List.mem_cons.mp hj with hj1 | hj2
      · exact absurd hj1 hne
      · obtain ⟨l, hl, hjl⟩ := List.mem_flatten.mp hj2
        obtain ⟨c, hcz⟩ := mem_zip_right hlen hl
        have hc := (List.mem_zip hcz).1
        by_cases hjc : j = c
        · subst hjc
          exact (hb j hc).2
        · exact ih (c, l) hcz j hjl hjc

theorem subtree_live {ns : Arena} {nk k : Nat} {ks : List Nat}
    (h : Subtree ns nk k ks) : (lookupA ns k).isSome := by
  cases h with
  | leaf hl _ => simp [hl]
  | branch hl _ _ _ _ => simp [hl]

theorem subtree_frame {ns ns2 : Arena} {nk nk2 : Nat} (hnk : nk ≤ nk2) :
    ∀ {k ks}, Subtree ns nk k ks →
    (∀ j ∈ ks, lookupA ns2 j = lookupA ns j) → Subtree ns2 nk2 k ks := by
  intro k ks h
  induction h with
  | leaf hl hc =>
      intro hfr
      exact Subtree.leaf (by rw [hfr _ (by simp)]; exact hl) hc
  | branch hlook hch hb hlen hsub ih =>
      intro hfr
      refine Subtree.branch (by rw [hfr _ (by simp)]; exact hlook) hch
        (fun c hc => ⟨(hb c hc).1, lt_of_lt_of_le (hb c hc).2 hnk⟩) hlen ?_
      intro p hp
      obtain ⟨c, l⟩ := p
      refine ih (c, l) hp ?_
      intro j hj
      refine hfr j ?_
      exact List.mem_cons_of_mem _
        (List.mem_flatten.mpr ⟨l, (List.mem_zip hp).2, hj⟩)

theorem subtree_cases {ns : Arena} {nk k : Nat} {ks : List Nat}
    (h : Subtree ns nk k ks) :
    ∃ n css, lookupA ns k = some n ∧ ks = k :: css.flatten ∧
      (n.children.getD []).length = css.length ∧
      (∀ c ∈ n.children.getD [], k < c ∧ c < nk) ∧
      (∀ p ∈ (n.children.getD []).zip css, Subtree ns nk p.1 p.2) := by
  cases h with
  | leaf hl hc => exact ⟨_, [], hl, rfl, by simp [hc], by simp [hc], by simp [hc]⟩
  | @branch k n cs css hl hc hb hlen hsub =>
      exact ⟨n, css, hl, rfl, by simp [hc, hlen], by simpa [hc] using hb,
        by simpa [hc] using hsub⟩

/-! ### Removal loop specification -/

theorem removeA_eq_self {ns : Arena} {k : Nat} (h : k ∉ ns.map Prod.fst) :
    removeA ns k = ns := by
  induction ns with
  | nil => rfl
  | cons kn tl ih =>
      obtain ⟨a, b⟩ := kn
      simp only [List.map_cons, List.mem_cons] at h
      push_neg at h
      rw [removeA_cons, if_neg (fun heq => h.1 heq.symm), ih h.2]

theorem arenaMeasure_cons (a : Nat) (b : Node) (tl : Arena) :
    arenaMeasure ((a, b) :: tl) =
      1 + (b.children.getD []).length + arenaMeasure tl := rfl

theorem arenaMeasure_removeA {ns : Arena} {k : Nat} {n : Node}
    (hnd : (ns.map Prod.fst).Nodup) (h : lookupA ns k = some n) :
    arenaMeasure (removeA ns k) + (1 + (n.children.getD []).length) =
      arenaMeasure ns := by
  induction ns with
  | nil => simp [lookupA_nil] at h
  | cons kn tl ih =>
      obtain ⟨a, b⟩ := kn
      simp only [List.map_cons, List.nodup_cons] at hnd
      by_cases ha : a = k
      · subst ha
        rw [lookupA_cons, if_pos rfl] at h
        cases h
        rw [removeA_cons, if_pos rfl, removeA_eq_self hnd.1,
          arenaMeasure_cons]
        omega
      · rw [lookupA_cons, if_neg ha] at h
        rw [removeA_cons, if_neg ha, arenaMeasure_cons, arenaMeasure_cons]
        have := ih hnd.2 h
        omega

theorem forall2_subtree_frame {nk nk2 : Nat} (hnk : nk ≤ nk2) :
    ∀ {ns ns2 : Arena} {pending : List Nat} {kss : List (List Nat)},
    List.Forall₂ (Subtree ns nk) pending kss →
    (∀ j ∈ kss.flatten, lookupA ns2 j = lookupA ns j) →
    List.Forall₂ (Subtree ns2 nk2) pending kss := by
  intro ns ns2 pending kss h
  induction h with
  | nil => intro _; exact List.Forall₂.nil
  | cons hhd htl ih =>
      intro hfr
      refine List.Forall₂.cons ?_ (ih ?_)
      · exact subtree_frame hnk hhd
          (fun j hj => hfr j (by simp [hj]))
      · intro j hj
        exact hfr j (by simp [List.mem_flatten] at hj ⊢; exact Or.inr hj)

theorem remove_loop_spec (nk : Nat) :
    ∀ (fuel : Nat) (ns : Arena) (pending : List Nat)
      (kss : List (List Nat)) (removed : List Nat),
    (ns.map Prod.fst).Nodup →
    List.Forall₂ (Subtree ns nk) pending kss →
    kss.flatten.Nodup →
    pending.length + arenaMeasure ns < fuel →
    ∃ removedNew ns',
      remove_loop fuel ns pending removed = some (removed ++ removedNew, ns') ∧
      (∀ j, lookupA ns' j =
        if j ∈ kss.flatten then none else lookupA ns j) ∧
      (ns'.map Prod.fst).Sublist (ns.map Prod.fst) ∧
      (∀ j, j ∈ removedNew ↔ j ∈ kss.flatten ∧
        ∃ n, lookupA ns j = some n ∧ n.children.getD [] = []) := by
  intro fuel
  induction fuel with
  | zero => intro ns pending kss removed _ _ _ hfuel; omega
  | succ f ih =>
      intro ns pending kss removed hnd hsub hflat hfuel
      cases pending with
      | nil =>
          cases hsub
          exact ⟨[], ns, by simp [remove_loop], by simp, List.Sublist.refl _,
            by simp⟩
      | cons k rest =>
          cases hsub with
          | cons hks hrest =>
            rename_i ks kss'
            obtain ⟨n, css, hlook, hksEq, hlenCss, hbnd, hsubz⟩ :=
              subtree_cases hks
            subst hksEq
            have hkNotRest : k ∉ kss'.flatten := by
              have := hflat
              simp only [List.flatten_cons, List.cons_append,
                List.nodup_cons] at this
              intro hmem
              exact this.1 (List.mem_append.mpr (Or.inr hmem))
            have hcssGtK : ∀ j ∈ css.flatten, k < j := by
              intro j hj
              obtain ⟨l, hl, hjl⟩ := List.mem_flatten.mp hj
              obtain ⟨c, hcz⟩ := mem_zip_right hlenCss hl
              have hc := (List.mem_zip hcz).1
              have h1 := subtree_ge (hsubz (c, l) hcz) j hjl
              have h2 := (hbnd c hc).1
              omega
            by_cases hc : n.children.getD [] = []
            · have hcss : css = [] := by
                rw [hc] at hlenCss
                exact List.length_eq_zero.mp hlenCss.symm
              subst hcss
              have hnd1 : ((removeA ns k).map Prod.fst).Nodup := by
                rw [removeA_map_fst]
                exact hnd.filter _
              have hsub1 : List.Forall₂ (Subtree (removeA ns k) nk) rest kss' :=
                forall2_subtree_frame (le_refl nk) hrest (fun j hj => by
                  rw [lookupA_removeA,
                    if_neg (fun (hh : j = k) => hkNotRest (hh ▸ hj))])
              have hflat1 : kss'.flatten.Nodup := by
                have := hflat
                simp only [List.flatten_cons] at this
                simp at this
                exact this.2
              have hmeas := arenaMeasure_removeA hnd hlook
              have hfuel1 : rest.length + arenaMeasure (removeA ns k) < f := by
                rw [hc] at hmeas
                simp only [List.length_cons] at hfuel
                simp at hmeas
                omega
              obtain ⟨R, ns', heq, hlk, hsl, hrm⟩ :=
                ih (removeA ns k) rest kss' (removed ++ [k]) hnd1 hsub1
                  hflat1 hfuel1
              have hstep : remove_loop (f + 1) ns (k :: rest) removed =
                  remove_loop f (removeA ns k) rest (removed ++ [k]) := by
                simp [remove_loop, hlook, hc]
              refine ⟨k :: R, ns', ?_, ?_, ?_, ?_⟩
              · rw [hstep, heq]
                simp
              · intro j
                by_cases hjk : j = k
                · subst hjk
                  rw [hlk j, if_neg hkNotRest, lookupA_removeA, if_pos rfl]
                  rw [if_pos (by simp)]
                · rw [hlk j]
                  by_cases hjm : j ∈ kss'.flatten
                  · rw [if_pos hjm, if_pos (by simp [hjm])]
                  · rw [if_neg hjm, lookupA_removeA, if_neg hjk, if_neg]
                    simp only [List.flatten_cons, List.flatten_nil,
                      List.nil_append, List.singleton_append, List.mem_cons]
                    rintro (hh | hh)
                    · exact hjk hh
                    · exact hjm hh
              · refine List.Sublist.trans hsl ?_
                rw [removeA_map_fst]
                exact List.filter_sublist _
              · intro j
                by_cases hjk : j = k
                · subst hjk
                  simp only [List.mem_cons, true_or, true_iff]
                  refine ⟨by simp, n, hlook, hc⟩
                · simp only [List.mem_cons, hjk, false_or]
                  rw [hrm j, lookupA_removeA, if_neg hjk]
                  constructor
                  · rintro ⟨h1, h2⟩
                    refine ⟨?_, h2⟩
                    simp only [List.flatten_cons, List.flatten_nil,
                      List.nil_append, List.singleton_append, List.mem_cons]
                    exact Or.inr h1
                  · rintro ⟨h1, h2⟩
                    refine ⟨?_, h2⟩
                    simp only [List.flatten_cons, List.flatten_nil,
                      List.nil_append, List.singleton_append,
                      List.mem_cons] at h1
                    exact h1.resolve_left hjk
            · -- the popped node has children: they are pushed
              have hchL : n.children.getD [] ≠ [] := hc
              have hF2 : List.Forall₂ (Subtree ns nk) (n.children.getD [])
                  css :=
                List.forall₂_iff_zip.mpr ⟨hlenCss, fun hp => hsubz _ hp⟩
              have hfr1 : ∀ j ∈ (css.reverse ++ kss').flatten,
                  lookupA (removeA ns k) j = lookupA ns j := by
                intro j hj
                rw [List.flatten_append, List.mem_append] at hj
                have hjne : j ≠ k := by
                  rcases hj with hj | hj
                  · have : j ∈ css.flatten :=
                      ((List.reverse_perm css).flatten.mem_iff).mp hj
                    have := hcssGtK j this
                    omega
                  · exact fun hh => hkNotRest (hh ▸ hj)
                rw [lookupA_removeA, if_neg hjne]
              have hsub1 : List.Forall₂ (Subtree (removeA ns k) nk)
                  ((n.children.getD []).reverse ++ rest)
                  (css.reverse ++ kss') :=
                forall2_subtree_frame (le_refl nk)
                  (List.rel_append (List.forall₂_reverse_iff.mpr hF2) hrest)
                  hfr1
              have hnd1 : ((removeA ns k).map Prod.fst).Nodup := by
                rw [removeA_map_fst]
                exact hnd.filter _
              have hperm : (css.reverse ++ kss').flatten.Perm
                  (css.flatten ++ kss'.flatten) := by
                rw [List.flatten_append]
                exact List.Perm.append (List.reverse_perm css).flatten
                  (List.Perm.refl _)
              have hflat1 : (css.reverse ++ kss').flatten.Nodup := by
                refine hperm.nodup_iff.mpr ?_
                have := hflat
                simp only [List.flatten_cons, List.cons_append,
                  List.nodup_cons] at this
                exact this.2
              have hmeas := arenaMeasure_removeA hnd hlook
              have hfuel1 : ((n.children.getD []).reverse ++ rest).length +
                  arenaMeasure (removeA ns k) < f := by
                simp only [List.length_append, List.length_reverse,
                  List.length_cons] at hfuel ⊢
                omega
              obtain ⟨R, ns', heq, hlk, hsl, hrm⟩ :=
                ih (removeA ns k) ((n.children.getD []).reverse ++ rest)
                  (css.reverse ++ kss') removed hnd1 hsub1 hflat1 hfuel1
              have hstep : remove_loop (f + 1) ns (k :: rest) removed =
                  remove_loop f (removeA ns k)
                    ((n.children.getD []).reverse ++ rest) removed := by
                obtain ⟨hd, tl0, hch⟩ := List.exists_cons_of_ne_nil hchL
                simp [remove_loop, hlook, hch]
              have hmemIff : ∀ j, j ∈ (css.reverse ++ kss').flatten ↔
                  (j ∈ css.flatten ∨ j ∈ kss'.flatten) := by
                intro j
                rw [hperm.mem_iff, List.mem_append]
              refine ⟨R, ns', by rw [hstep, heq], ?_, ?_, ?_⟩
              · intro j
                by_cases hjk : j = k
                · subst hjk
                  rw [hlk j]
                  have : j ∉ (css.reverse ++ kss').flatten := by
                    rw [hmemIff]
                    rintro (hm | hm)
                    · have := hcssGtK j hm
                      omega
                    · exact hkNotRest hm
                  rw [if_neg this, lookupA_removeA, if_pos rfl]
                  simp
                · rw [hlk j]
                  by_cases hjm : j ∈ (css.reverse ++ kss').flatten
                  · rw [if_pos hjm, if_pos]
                    rw [hmemIff] at hjm
                    simp only [List.flatten_cons, List.cons_append,
                      List.mem_cons, List.mem_append]
                    exact Or.inr hjm
                  · rw [if_neg hjm, lookupA_removeA, if_neg hjk, if_neg]
                    rw [hmemIff] at hjm
                    simp only [List.flatten_cons, List.cons_append,
                      List.mem_cons, List.mem_append]
                    rintro (hh | hh | hh)
                    · exact hjk hh
                    · exact hjm (Or.inl hh)
                    · exact hjm (Or.inr hh)
              · refine List.Sublist.trans hsl ?_
                rw [removeA_map_fst]
                exact List.filter_sublist _
              · intro j
                rw [hrm j, hmemIff]
                by_cases hjk : j = k
                · subst hjk
                  constructor
                  · rintro ⟨hm, _⟩
                    rcases hm with hm | hm
                    · have := hcssGtK j hm
                      omega
                    · exact absurd hm hkNotRest
                  · rintro ⟨_, m, hm, hmc⟩
                    rw [hlook] at hm
                    cases hm
                    exact absurd hmc hchL
                · rw [lookupA_removeA, if_neg hjk]
                  simp only [List.flatten_cons, List.cons_append,
                    List.mem_cons, List.mem_append]
                  constructor
                  · rintro ⟨hm, h2⟩
                    exact ⟨Or.inr hm, h2⟩
                  · rintro ⟨hm, h2⟩
                    rcases hm with hm | hm
                    · exact absurd hm hjk
                    · exact ⟨hm, h2⟩

theorem node_set_children_none {n : Node} (h : n.children = none) :
    { n with children := none } = n := by
  cases n
  simp_all

theorem updateA_not_mem {ns : Arena} {k : Nat} {f : Node → Node}
    (h : k ∉ ns.map Prod.fst) : updateA ns k f = ns := by
  induction ns with
  | nil => rfl
  | cons kn tl ih =>
      obtain ⟨a, b⟩ := kn
      simp only [List.map_cons, List.mem_cons] at h
      push_neg at h
      rw [updateA_cons, if_neg (fun heq => h.1 heq.symm), ih h.2]

theorem updateA_eq_self {ns : Arena} {k : Nat} {f : Node → Node}
    (hnd : (ns.map Prod.fst).Nodup)
    (h : ∀ n, lookupA ns k = some n → f n = n) : updateA ns k f = ns := by
  induction ns with
  | nil => rfl
  | cons kn tl ih =>
      obtain ⟨a, b⟩ := kn
      simp only [List.map_cons, List.nodup_cons] at hnd
      by_cases ha : a = k
      · subst ha
        rw [updateA_cons, if_pos rfl,
          h b (by rw [lookupA_cons, if_pos rfl]), updateA_not_mem hnd.1]
      · rw [updateA_cons, if_neg ha]
        refine congrArg _ (ih hnd.2 ?_)
        intro n hn
        refine h n ?_
        rw [lookupA_cons, if_neg ha]
        exact hn

theorem subtree_has_leaf {ns : Arena} {nk : Nat} : ∀ {k ks},
    Subtree ns nk k ks →
    ∃ j ∈ ks, ∃ n, lookupA ns j = some n ∧ n.children.getD [] = [] := by
  intro k ks h
  induction h with
  | leaf hl hc => exact ⟨_, by simp, _, hl, by simp [hc]⟩
  | @branch k n cs css hl hc hb hlen hsub ih =>
      cases cs with
      | nil =>
          exact ⟨k, by simp, n, hl, by simp [hc]⟩
      | cons c0 cs' =>
          cases css with
          | nil => simp at hlen
          | cons l0 css' =>
              obtain ⟨j, hj, m, hm, hmc⟩ := ih (c0, l0) (by simp)
              refine ⟨j, ?_, m, hm, hmc⟩
              simp only [List.flatten_cons, List.mem_cons, List.mem_append]
              exact Or.inr (Or.inl hj)

theorem remove_children_spec {st : Tree} {k : Nat} {ks : List Nat}
    (hnd : (st.nodes.map Prod.fst).Nodup)
    (hsub : Subtree st.nodes st.next_key k ks)
    (hksnd : ks.Nodup) :
    ∃ removed st',
      remove_children_recursively st k = some (removed, st') ∧
      st'.next_key = st.next_key ∧ st'.min_size = st.min_size ∧
      st'.roots = st.roots ∧
      (∀ j, j ∉ ks → lookupA st'.nodes j = lookupA st.nodes j) ∧
      (∀ j, j ∈ ks → j ≠ k → lookupA st'.nodes j = none) ∧
      (lookupA st'.nodes k = (lookupA st.nodes k).map
        (fun n => { n with children := none })) ∧
      (st'.nodes.map Prod.fst).Sublist (st.nodes.map Prod.fst) ∧
      (∀ j, j ∈ removed ↔ j ∈ ks ∧ j ≠ k ∧
        ∃ n, lookupA st.nodes j = some n ∧ n.children.getD [] = []) ∧
      (removed = [] ↔ (getU st k).children.getD [] = []) := by
  obtain ⟨n, css, hlook, hksEq, hlenCss, hbnd, hsubz⟩ := subtree_cases hsub
  subst hksEq
  have hgetU : getU st k = n := by simp [getU, hlook]
  have hkNotCss : k ∉ css.flatten := by
    simpa using (List.nodup_cons.mp hksnd).1
  have hcssGtK : ∀ j ∈ css.flatten, k < j := by
    intro j hj
    obtain ⟨l, hl, hjl⟩ := List.mem_flatten.mp hj
    obtain ⟨c, hcz⟩ := mem_zip_right hlenCss hl
    have hc := (List.mem_zip hcz).1
    have h1 := subtree_ge (hsubz (c, l) hcz) j hjl
    have h2 := (hbnd c hc).1
    omega
  set cs := n.children.getD [] with hcs
  set ns1 := updateA st.nodes k (fun n => { n with children := none })
    with hns1
  have hlook1 : ∀ j, j ≠ k → lookupA ns1 j = lookupA st.nodes j := by
    intro j hj
    rw [hns1, lookupA_updateA, if_neg hj]
  have hlookk1 : lookupA ns1 k = some { n with children := none } := by
    rw [hns1, lookupA_updateA, if_pos rfl, hlook]
    rfl
  have hnd1 : (ns1.map Prod.fst).Nodup := by
    rw [hns1, updateA_map_fst]
    exact hnd
  have hF2 : List.Forall₂ (Subtree ns1 st.next_key) cs.reverse css.reverse := by
    refine List.forall₂_reverse_iff.mpr ?_
    refine forall2_subtree_frame (le_refl _)
      (List.forall₂_iff_zip.mpr ⟨hlenCss, fun hp => hsubz _ hp⟩) ?_
    intro j hj
    refine hlook1 j ?_
    intro hjk
    exact hkNotCss (hjk ▸ hj)
  have hflat1 : css.reverse.flatten.Nodup := by
    refine ((List.reverse_perm css).flatten.nodup_iff).mpr ?_
    exact (List.nodup_cons.mp hksnd).2
  have hfuel : cs.reverse.length + arenaMeasure ns1 <
      cs.length + arenaMeasure ns1 + 1 := by
    simp
  obtain ⟨R, ns', heq, hlk, hsl, hrm⟩ := remove_loop_spec st.next_key
    (cs.length + arenaMeasure ns1 + 1) ns1 cs.reverse css.reverse [] hnd1
    hF2 hflat1 hfuel
  have hmemRev : ∀ j, j ∈ css.reverse.flatten ↔ j ∈ css.flatten := by
    intro j
    exact (List.reverse_perm css).flatten.mem_iff
  have hrcr : remove_children_recursively st k = some (R, { st with nodes := ns' }) := by
    simp only [remove_children_recursively, hgetU]
    rw [← hcs, ← hns1, heq]
    rfl
  refine ⟨R, { st with nodes := ns' }, hrcr, rfl, rfl, rfl, ?_, ?_, ?_, ?_,
    ?_, ?_⟩
  · intro j hj
    have hjk : j ≠ k := fun hh => hj (hh ▸ List.mem_cons_self _ _)
    have hjc : j ∉ css.flatten := fun hh =>
      hj (List.mem_cons_of_mem _ hh)
    show lookupA ns' j = _
    rw [hlk j, if_neg (fun hh => hjc ((hmemRev j).mp hh)), hlook1 j hjk]
  · intro j hj hjk
    have hjc : j ∈ css.flatten := (List.mem_cons.mp hj).resolve_left hjk
    show lookupA ns' j = none
    rw [hlk j, if_pos ((hmemRev j).mpr hjc)]
  · show lookupA ns' k = _
    rw [hlk k, if_neg (fun hh => hkNotCss ((hmemRev k).mp hh)), hlookk1,
      hlook]
    rfl
  · show (ns'.map Prod.fst).Sublist _
    refine hsl.trans ?_
    rw [hns1, updateA_map_fst]
  · intro j
    rw [hrm j]
    constructor
    · rintro ⟨h1, m, hm, hmc⟩
      have hjc : j ∈ css.flatten := (hmemRev j).mp h1
      have hjk : j ≠ k := fun hh => hkNotCss (hh ▸ hjc)
      rw [hlook1 j hjk] at hm
      exact ⟨List.mem_cons_of_mem _ hjc, hjk, m, hm, hmc⟩
    · rintro ⟨h1, hjk, m, hm, hmc⟩
      have hjc : j ∈ css.flatten := (List.mem_cons.mp h1).resolve_left hjk
      refine ⟨(hmemRev j).mpr hjc, m, ?_, hmc⟩
      rw [hlook1 j hjk]
      exact hm
  · rw [hgetU, ← hcs]
    constructor
    · intro hR
      by_contra hcne
      obtain ⟨c0, cs', hcseq⟩ := List.exists_cons_of_ne_nil hcne
      have hzip : cs.length = css.length := hlenCss
      cases css with
      | nil =>
          rw [hcseq] at hzip
          simp at hzip
      | cons l0 css' =>
          have hc0 : (c0, l0) ∈ cs.zip (l0 :: css') := by
            rw [hcseq]
            simp
          obtain ⟨j, hj, m, hm, hmc⟩ := subtree_has_leaf (hsubz (c0, l0) hc0)
          have hjmem : j ∈ (l0 :: css').flatten := by
            simp only [List.flatten_cons, List.mem_append]
            exact Or.inl hj
          have hjk : j ≠ k := by
            have := hcssGtK j hjmem
            omega
          have : j ∈ R := by
            rw [hrm j]
            refine ⟨(hmemRev j).mpr hjmem, m, ?_, hmc⟩
            rw [hlook1 j hjk]
            exact hm
          rw [hR] at this
          simp at this
    · intro hcnil
      have hcssnil : css = [] := by
        rw [hcnil] at hlenCss
        exact List.length_eq_zero.mp hlenCss.symm
      subst hcssnil
      rcases List.eq_nil_or_concat R with hR | ⟨R0, j, hRj⟩
      · exact hR
      · exfalso
        have : j ∈ R := by
          rw [hRj]
          simp
        rw [hrm j] at this
        simp at this

theorem flatten_map_singleton {α : Type _} (l : List α) :
    (l.map fun a => [a]).flatten = l := by
  induction l with
  | nil => rfl
  | cons a tl ih => simp [ih]

theorem forall2_map_singleton {α : Type _} {R : α → List α → Prop}
    {l : List α} (h : ∀ a ∈ l, R a [a]) :
    List.Forall₂ R l (l.map fun a => [a]) := by
  induction l with
  | nil => exact List.Forall₂.nil
  | cons a tl ih =>
      exact List.Forall₂.cons (h a (by simp))
        (ih fun a ha => h a (by simp [ha]))

theorem subtree_keys_lt {ns : Arena} {nk k : Nat} {ks : List Nat}
    (hbound : ∀ j ∈ ns.map Prod.fst, j < nk)
    (hsub : Subtree ns nk k ks) : ∀ j ∈ ks, j < nk := by
  intro j hj
  by_cases hjk : j = k
  · subst hjk
    refine hbound j ?_
    exact lookupA_isSome.mp (subtree_live hsub)
  · exact subtree_lt_nk hsub j hj hjk

theorem forall2_flatten_mem {pending : List Nat} :
    ∀ {ns : Arena} {nk : Nat} {kss : List (List Nat)} {j : Nat},
    List.Forall₂ (Subtree ns nk) pending kss → j ∈ pending →
    j ∈ kss.flatten := by
  induction pending with
  | nil => intro _ _ _ _ _ hj; simp at hj
  | cons a tl ih =>
      intro ns nk kss j hF hj
      cases hF with
      | cons hhd htl =>
          rcases List.mem_cons.mp hj with hj | hj
          · subst hj
            obtain ⟨tl2, htl2⟩ := subtree_head hhd
            simp [htl2]
          · simp only [List.flatten_cons, List.mem_append]
            exact Or.inr (ih htl hj)

theorem forall2_keys_lt {ns : Arena} {nk : Nat}
    (hbound : ∀ j ∈ ns.map Prod.fst, j < nk) :
    ∀ {pending : List Nat} {kss : List (List Nat)},
    List.Forall₂ (Subtree ns nk) pending kss →
    ∀ j ∈ kss.flatten, j < nk := by
  intro pending kss h
  induction h with
  | nil => intro j hj; simp at hj
  | cons hhd htl ih =>
      intro j hj
      simp only [List.flatten_cons, List.mem_append] at hj
      rcases hj with hj | hj
      · exact subtree_keys_lt hbound hhd j hj
      · exact ih j hj

/--
The central specification of the refinement work-list loop, for any
`create_children` satisfying `CCSpec` and for predicates that read only a
node's immutable geometry: a completed pass preserves arena well-formedness,
only touches the subtrees of the pending keys and freshly allocated keys,
and leaves every pending subtree a refinement fixpoint of the predicate.
-/
theorem insert_loop_spec
    (cc : Tree → Nat → List Nat × Tree)
    (ge : Tree → List TreeEvent → List ℚ → Nat → List Nat → List TreeEvent)
    (hcc : CCSpec cc) (p : Node → Bool) (hp : GeomPred p) :
    ∀ (fuel : Nat) (st : Tree) (pending : List Nat)
      (kss : List (List Nat)) (ev ev' : List TreeEvent) (st' : Tree),
    (st.nodes.map Prod.fst).Nodup →
    (∀ j ∈ st.nodes.map Prod.fst, j < st.next_key) →
    List.Forall₂ (Subtree st.nodes st.next_key) pending kss →
    kss.flatten.Nodup →
    insert_loop cc ge fuel p st pending ev = some (ev', st') →
    (st'.nodes.map Prod.fst).Nodup ∧
    (∀ j ∈ st'.nodes.map Prod.fst, j < st'.next_key) ∧
    st.next_key ≤ st'.next_key ∧
    st'.min_size = st.min_size ∧
    st'.roots = st.roots ∧
    (∀ i, i ∉ kss.flatten → i < st.next_key →
      lookupA st'.nodes i = lookupA st.nodes i) ∧
    (∀ j ∈ pending, Fixedpt p st' j) := by
  intro fuel
  induction fuel with
  | zero =>
      intro st pending kss ev ev' st' hnd hbound hF hflat heq
      cases pending with
      | nil =>
          cases hF
          simp only [insert_loop] at heq
          cases heq
          exact ⟨hnd, hbound, le_refl _, rfl, rfl,
            fun i _ _ => rfl, by simp⟩
      | cons k rest => simp [insert_loop] at heq
  | succ f ih =>
      intro st pending kss ev ev' st' hnd hbound hF hflat heq
      cases pending with
      | nil =>
          cases hF
          simp only [insert_loop] at heq
          cases heq
          exact ⟨hnd, hbound, le_refl _, rfl, rfl,
            fun i _ _ => rfl, by simp⟩
      | cons k rest =>
          cases hF with
          | cons hks hrest =>
            rename_i ks kss'
            obtain ⟨n, css, hlook, hksEq, hlenCss, hbnd, hsubz⟩ :=
              subtree_cases hks
            subst hksEq
            have hgetU : getU st k = n := by simp [getU, hlook]
            have hklt : k < st.next_key :=
              hbound k (lookupA_isSome.mp (by simp [hlook]))
            have hparts : k ∉ (css.flatten ++ kss'.flatten) ∧
                (css.flatten ++ kss'.flatten).Nodup := by
              have := hflat
              simp only [List.flatten_cons, List.cons_append,
                List.nodup_cons] at this
              exact this
            have hsplit := List.nodup_append.mp hparts.2
            have hkNotRest : k ∉ kss'.flatten := fun hmem =>
              hparts.1 (List.mem_append.mpr (Or.inr hmem))
            have hcssGtK : ∀ j ∈ css.flatten, k < j := by
              intro j hj
              obtain ⟨l, hl, hjl⟩ := List.mem_flatten.mp hj
              obtain ⟨c, hcz⟩ := mem_zip_right hlenCss hl
              have hc := (List.mem_zip hcz).1
              have h1 := subtree_ge (hsubz (c, l) hcz) j hjl
              have h2 := (hbnd c hc).1
              omega
            have hksnd : (k :: css.flatten).Nodup :=
              List.nodup_cons.mpr
                ⟨fun hm => hparts.1 (List.mem_append.mpr (Or.inl hm)),
                 hsplit.1⟩
            have hflat2 : kss'.flatten.Nodup := hsplit.2.1
            have hrestLt : ∀ j ∈ kss'.flatten, j < st.next_key :=
              forall2_keys_lt hbound hrest
            simp only [insert_loop] at heq
            by_cases hpk : p (getU st k) = true
            · rw [if_pos hpk] at heq
              cases hch : n.children with
              | some cs =>
                  rw [hgetU, hch] at heq
                  have hcsEq : n.children.getD [] = cs := by simp [hch]
                  have hF2 : List.Forall₂ (Subtree st.nodes st.next_key)
                      cs css := by
                    refine List.forall₂_iff_zip.mpr
                      ⟨by simpa [hcsEq] using hlenCss, fun hp2 => ?_⟩
                    exact hsubz _ (by simpa [hcsEq] using hp2)
                  have hFnew : List.Forall₂ (Subtree st.nodes st.next_key)
                      (cs.reverse ++ rest) (css.reverse ++ kss') :=
                    List.rel_append (List.forall₂_reverse_iff.mpr hF2) hrest
                  have hpermNew : (css.reverse ++ kss').flatten.Perm
                      (css.flatten ++ kss'.flatten) := by
                    rw [List.flatten_append]
                    exact List.Perm.append (List.reverse_perm css).flatten
                      (List.Perm.refl _)
                  have hflatNew : (css.reverse ++ kss').flatten.Nodup := by
                    refine hpermNew.nodup_iff.mpr ?_
                    have := hflat
                    simp only [List.flatten_cons, List.cons_append,
                      List.nodup_cons] at this
                    exact this.2
                  obtain ⟨c1, c2, c3, c4, c5, c6, c7⟩ :=
                    ih st (cs.reverse ++ rest) (css.reverse ++ kss') ev ev'
                      st' hnd hbound hFnew hflatNew heq
                  have hkNotNew : k ∉ (css.reverse ++ kss').flatten := by
                    rw [hpermNew.mem_iff, List.mem_append]
                    rintro (hm | hm)
                    · have := hcssGtK k hm
                      omega
                    · exact hkNotRest hm
                  have hlookk : lookupA st'.nodes k = some n :=
                    (c6 k hkNotNew hklt).trans hlook
                  refine ⟨c1, c2, c3, c4, c5, ?_, ?_⟩
                  · intro i hi hilt
                    refine c6 i ?_ hilt
                    rw [hpermNew.mem_iff, List.mem_append]
                    simp only [List.flatten_cons, List.cons_append,
                      List.mem_cons, List.mem_append] at hi
                    push_neg at hi
                    rintro (hm | hm)
                    · exact hi.2.1 hm
                    · exact hi.2.2 hm
                  · intro j hj
                    rcases List.mem_cons.mp hj with hj | hj
                    · subst hj
                      have hgetU2 : getU st' j = n := by
                        simp [getU, hlookk]
                      refine @Fixedpt.branch p st' j cs
                        (by rw [hgetU2, hch]) ?_ ?_ ?_
                      · rw [hgetU2, ← hgetU]
                        exact hpk
                      · intro c hc
                        have hb := hbnd c (by simpa [hcsEq] using hc)
                        exact ⟨hb.1, lt_of_lt_of_le hb.2 c3⟩
                      · intro c hc
                        exact c7 c (by simp [hc])
                    · exact c7 j (by simp [hj])
              | none =>
                  rw [hgetU, hch] at heq
                  by_cases hsz : st.min_size < n.size
                  · rw [if_pos hsz] at heq
                    obtain ⟨m, hm0, hkeys, hnk2, hmin2, hroots2, hfst2,
                      hframe2, hkframe2, hnew2⟩ := hcc st k
                    have hnd2 : ((cc st k).2.nodes.map Prod.fst).Nodup := by
                      rw [hfst2]
                      refine List.Nodup.append hnd
                        (List.nodup_range' _ _) ?_
                      intro a ha ha2
                      have h1 := hbound a ha
                      have h2 := (List.mem_range'_1.mp ha2).1
                      omega
                    have hbound2 : ∀ j ∈ (cc st k).2.nodes.map Prod.fst,
                        j < (cc st k).2.next_key := by
                      rw [hfst2, hnk2]
                      intro j hj
                      rcases List.mem_append.mp hj with hj | hj
                      · have := hbound j hj
                        omega
                      · have := (List.mem_range'_1.mp hj).2
                        omega
                    have hnklt2 : st.next_key ≤ (cc st k).2.next_key := by
                      rw [hnk2]
                      omega
                    have hnewkeys := hnew2 hbound hklt
                    have hFfresh : List.Forall₂ (Subtree (cc st k).2.nodes
                        (cc st k).2.next_key) (cc st k).1.reverse
                        ((cc st k).1.reverse.map fun a => [a]) := by
                      refine forall2_map_singleton ?_
                      intro a ha
                      rw [List.mem_reverse, hkeys, List.mem_range'_1] at ha
                      obtain ⟨nn, hnn, hnnc, _, _⟩ :=
                        hnewkeys (a - st.next_key) (by omega)
                      have hax : st.next_key + (a - st.next_key) = a := by
                        omega
                      rw [hax] at hnn
                      exact Subtree.leaf hnn hnnc
                    have hFrest : List.Forall₂ (Subtree (cc st k).2.nodes
                        (cc st k).2.next_key) rest kss' := by
                      refine forall2_subtree_frame hnklt2 hrest ?_
                      intro j hj
                      refine hframe2 j (hrestLt j hj) ?_
                      intro hjk
                      exact hkNotRest (hjk ▸ hj)
                    have hFnew := List.rel_append hFfresh hFrest
                    have hflatEq : (((cc st k).1.reverse.map fun a => [a])
                        ++ kss').flatten =
                        (cc st k).1.reverse ++ kss'.flatten := by
                      rw [List.flatten_append, flatten_map_singleton]
                    have hflatNew : ((((cc st k).1.reverse.map fun a => [a])
                        ++ kss')).flatten.Nodup := by
                      rw [hflatEq]
                      refine List.Nodup.append ?_ hflat2 ?_
                      · rw [List.nodup_reverse, hkeys]
                        exact List.nodup_range' _ _
                      · intro a ha ha2
                        rw [List.mem_reverse, hkeys,
                          List.mem_range'_1] at ha
                        have := hrestLt a ha2
                        omega
                    obtain ⟨c1, c2, c3, c4, c5, c6, c7⟩ :=
                      ih (cc st k).2 ((cc st k).1.reverse ++ rest)
                        (((cc st k).1.reverse.map fun a => [a]) ++ kss')
                        (ge (cc st k).2 ev n.pos k (cc st k).1)
                        ev' st' hnd2 hbound2 hFnew hflatNew heq
                    have hkNotNew : k ∉ ((((cc st k).1.reverse.map
                        fun a => [a]) ++ kss')).flatten := by
                      rw [hflatEq, List.mem_append]
                      rintro (hm | hm)
                      · rw [List.mem_reverse, hkeys,
                          List.mem_range'_1] at hm
                        omega
                      · exact hkNotRest hm
                    set nUpd : Node :=
                      { n with children := some (List.range' st.next_key m) }
                      with hnUpd
                    have hlookk : lookupA st'.nodes k = some nUpd := by
                      rw [c6 k hkNotNew (lt_of_lt_of_le hklt hnklt2),
                        hkframe2 hklt, hlook]
                      rfl
                    refine ⟨c1, c2, le_trans hnklt2 c3,
                      c4.trans hmin2, c5.trans hroots2, ?_, ?_⟩
                    · intro i hi hilt
                      have hik : i ≠ k := by
                        intro hh
                        subst hh
                        exact hi (by simp)
                      have : lookupA st'.nodes i =
                          lookupA (cc st k).2.nodes i := by
                        refine c6 i ?_ (lt_of_lt_of_le hilt hnklt2)
                        rw [hflatEq, List.mem_append]
                        simp only [List.flatten_cons, List.cons_append,
                          List.mem_cons, List.mem_append] at hi
                        push_neg at hi
                        rintro (hm | hm)
                        · rw [List.mem_reverse, hkeys,
                            List.mem_range'_1] at hm
                          omega
                        · exact hi.2.2 hm
                      rw [this, hframe2 i hilt hik]
                    · intro j hj
                      rcases List.mem_cons.mp hj with hj | hj
                      · rw [hj]
                        have hgetU2 : getU st' k = nUpd := by
                          simp [getU, hlookk]
                        refine @Fixedpt.branch p st' k
                          (List.range' st.next_key m)
                          (by rw [hgetU2, hnUpd]) ?_ ?_ ?_
                        · rw [hgetU2]
                          have := hp nUpd n rfl rfl rfl rfl
                          rw [this, ← hgetU]
                          exact hpk
                        · intro c hc
                          rw [List.mem_range'_1] at hc
                          refine ⟨by omega, ?_⟩
                          refine lt_of_lt_of_le ?_ c3
                          rw [hnk2]
                          omega
                        · intro c hc
                          refine c7 c ?_
                          rw [List.mem_append, List.mem_reverse, hkeys]
                          rw [List.mem_range'_1] at hc ⊢
                          exact Or.inl hc
                      · exact c7 j (by simp [hj])
                  · rw [if_neg hsz] at heq
                    obtain ⟨c1, c2, c3, c4, c5, c6, c7⟩ :=
                      ih st rest kss' ev ev' st' hnd hbound hrest hflat2 heq
                    refine ⟨c1, c2, c3, c4, c5, ?_, ?_⟩
                    · intro i hi hilt
                      refine c6 i ?_ hilt
                      intro hm
                      refine hi ?_
                      simp only [List.flatten_cons, List.cons_append,
                        List.mem_cons, List.mem_append]
                      exact Or.inr (Or.inr hm)
                    · intro j hj
                      rcases List.mem_cons.mp hj with hj | hj
                      · subst hj
                        have hlookk : lookupA st'.nodes j = some n :=
                          (c6 j hkNotRest hklt).trans hlook
                        have hgetU2 : getU st' j = n := by
                          simp [getU, hlookk]
                        refine Fixedpt.leaf (by rw [hgetU2, hch]) ?_
                        intro _
                        rw [hgetU2, c4]
                        exact hsz
                      · exact c7 j hj
            · rw [if_neg hpk] at heq
              obtain ⟨R, stR, hrcr, hnkR, hminR, hrootsR, hfrR, hgoneR,
                hkR, hslR, hrmR, hR0⟩ :=
                remove_children_spec hnd hks hksnd
              have hstepR : shrink_event st ev k =
                  some (if R.isEmpty then ev
                    else ev ++ [TreeEvent.Shrunk k R], stR) := by
                simp [shrink_event, hrcr]
              rw [hstepR] at heq
              have hndR : (stR.nodes.map Prod.fst).Nodup :=
                hslR.nodup hnd
              have hboundR : ∀ j ∈ stR.nodes.map Prod.fst,
                  j < stR.next_key := by
                intro j hj
                rw [hnkR]
                exact hbound j (hslR.mem hj)
              have hFrestR : List.Forall₂ (Subtree stR.nodes stR.next_key)
                  rest kss' := by
                refine forall2_subtree_frame (le_of_eq hnkR.symm) hrest ?_
                intro j hj
                refine hfrR j ?_
                intro hm
                rcases List.mem_cons.mp hm with hm | hm
                · exact hkNotRest (hm ▸ hj)
                · exact hsplit.2.2 hm hj
              obtain ⟨c1, c2, c3, c4, c5, c6, c7⟩ :=
                ih stR rest kss' _ ev' st' hndR hboundR hFrestR hflat2 heq
              refine ⟨c1, c2, hnkR ▸ c3, c4.trans hminR,
                c5.trans hrootsR, ?_, ?_⟩
              · intro i hi hilt
                have hiks : i ∉ (k :: css.flatten) := by
                  intro hm
                  refine hi ?_
                  simp only [List.flatten_cons, List.cons_append,
                    List.mem_cons, List.mem_append]
                  rcases List.mem_cons.mp hm with hm | hm
                  · exact Or.inl hm
                  · exact Or.inr (Or.inl hm)
                have hikss : i ∉ kss'.flatten := by
                  intro hm
                  refine hi ?_
                  simp only [List.flatten_cons, List.cons_append,
                    List.mem_cons, List.mem_append]
                  exact Or.inr (Or.inr hm)
                rw [c6 i hikss (hnkR ▸ hilt), hfrR i hiks]
              · intro j hj
                rcases List.mem_cons.mp hj with hj | hj
                · subst hj
                  have hlookk : lookupA st'.nodes j =
                      some { n with children := none } := by
                    rw [c6 j hkNotRest (hnkR ▸ hklt), hkR, hlook]
                    rfl
                  have hgetU2 : getU st' j =
                      { n with children := none } := by
                    simp [getU, hlookk]
                  refine Fixedpt.leaf (by rw [hgetU2]) ?_
                  intro hcontra
                  exfalso
                  rw [hgetU2] at hcontra
                  have := hp { n with children := none } n rfl rfl rfl rfl
                  rw [this, ← hgetU] at hcontra
                  exact hpk hcontra
                · exact c7 j hj

theorem weighs_pos {st : Tree} {k w : Nat} (h : Weighs st k w) : 1 ≤ w := by
  cases h with
  | leaf _ => omega
  | branch _ _ _ => omega

theorem weighs_inv {st : Tree} {k w : Nat} {cs : List Nat}
    (h : Weighs st k w) (hch : (getU st k).children = some cs) :
    ∃ ws, cs.length = ws.length ∧ (∀ p ∈ cs.zip ws, Weighs st p.1 p.2) ∧
      w = 1 + ws.sum := by
  cases h with
  | leaf hc => rw [hc] at hch; cases hch
  | branch hc hlen hz =>
      rw [hc] at hch
      cases hch
      exact ⟨_, hlen, hz, rfl⟩

theorem exists_list_of_forall_mem {α β : Type _} {R : α → β → Prop} :
    ∀ {l : List α}, (∀ a ∈ l, ∃ b, R a b) →
    ∃ bs, l.length = bs.length ∧ ∀ p ∈ l.zip bs, R p.1 p.2 := by
  intro l
  induction l with
  | nil => intro _; exact ⟨[], rfl, by simp⟩
  | cons a tl ih =>
      intro h
      obtain ⟨b, hb⟩ := h a (by simp)
      obtain ⟨bs, hlen, hz⟩ := ih (fun a ha => h a (by simp [ha]))
      refine ⟨b :: bs, by simp [hlen], ?_⟩
      intro q hq
      rcases List.mem_cons.mp hq with hq | hq
      · subst hq
        exact hb
      · exact hz q hq

theorem fixedpt_weighs {p : Node → Bool} {st : Tree} : ∀ {k},
    Fixedpt p st k → ∃ w, Weighs st k w := by
  intro k h
  induction h with
  | leaf hch _ => exact ⟨1, Weighs.leaf hch⟩
  | branch hch _ _ _ ih =>
      obtain ⟨ws, hlen, hz⟩ := exists_list_of_forall_mem ih
      exact ⟨1 + ws.sum, Weighs.branch hch hlen hz⟩

/--
Running the insert work-list over keys whose subtrees are refinement
fixpoints of the predicate performs no mutation and emits no event: the
loop returns the event list and the state unchanged.
-/
theorem insert_loop_fixed
    (cc : Tree → Nat → List Nat × Tree)
    (ge : Tree → List TreeEvent → List ℚ → Nat → List Nat → List TreeEvent)
    (p : Node → Bool) :
    ∀ (fuel : Nat) (st : Tree) (pending : List Nat) (ws : List Nat)
      (ev : List TreeEvent),
    (st.nodes.map Prod.fst).Nodup →
    List.Forall₂ (Weighs st) pending ws →
    (∀ j ∈ pending, Fixedpt p st j) →
    ws.sum ≤ fuel →
    insert_loop cc ge fuel p st pending ev = some (ev, st) := by
  intro fuel
  induction fuel with
  | zero =>
      intro st pending ws ev hnd hW hfix hsum
      cases pending with
      | nil => simp [insert_loop]
      | cons k rest =>
          cases hW with
          | cons hw _ =>
              have h1 := weighs_pos hw
              simp only [List.sum_cons] at hsum
              omega
  | succ f ih =>
      intro st pending ws ev hnd hW hfix hsum
      cases pending with
      | nil => simp [insert_loop]
      | cons k rest =>
          cases hW with
          | cons hw hwrest =>
            rename_i w ws'
            have hw1 := weighs_pos hw
            have hsum' : ws'.sum ≤ f + 1 - w := by
              simp only [List.sum_cons] at hsum
              omega
            cases hfix k (by simp) with
            | leaf hch hszc =>
                simp only [insert_loop]
                by_cases hpk : p (getU st k) = true
                · rw [if_pos hpk, hch, if_neg (hszc hpk)]
                  refine ih st rest ws' ev hnd hwrest
                    (fun j hj => hfix j (by simp [hj])) ?_
                  omega
                · rw [if_neg hpk]
                  have hrcr : remove_children_recursively st k =
                      some ([], st) := by
                    simp only [remove_children_recursively, hch]
                    have hupd : updateA st.nodes k
                        (fun n => { n with children := none }) = st.nodes := by
                      refine updateA_eq_self hnd ?_
                      intro n hn
                      refine node_set_children_none ?_
                      have : getU st k = n := by simp [getU, hn]
                      rw [← this]
                      exact hch
                    rw [hupd]
                    simp [remove_loop]
                  have hse : shrink_event st ev k = some (ev, st) := by
                    simp [shrink_event, hrcr]
                  rw [hse]
                  refine ih st rest ws' ev hnd hwrest
                    (fun j hj => hfix j (by simp [hj])) ?_
                  omega
            | branch hch hpk hbnds hfixc =>
                rename_i cs
                simp only [insert_loop]
                rw [if_pos hpk, hch]
                obtain ⟨wcs, hlen, hzw, hwEq⟩ := weighs_inv hw hch
                have hWnew : List.Forall₂ (Weighs st)
                    (cs.reverse ++ rest) (wcs.reverse ++ ws') :=
                  List.rel_append (List.forall₂_reverse_iff.mpr
                    (List.forall₂_iff_zip.mpr ⟨hlen, fun hp2 => hzw _ hp2⟩))
                    hwrest
                refine ih st (cs.reverse ++ rest) (wcs.reverse ++ ws') ev
                  hnd hWnew ?_ ?_
                · intro j hj
                  rcases List.mem_append.mp hj with hj | hj
                  · exact hfixc j (List.mem_reverse.mp hj)
                  · exact hfix j (by simp [hj])
                · rw [List.sum_append, List.sum_reverse]
                  simp only [List.sum_cons] at hsum
                  omega

/-! ### Structure preservation of the neighbour-size update pass -/

theorem samestruct_refl (st : Tree) : SameStruct st st :=
  ⟨rfl, rfl, rfl, rfl, fun _ => rfl⟩

theorem samestruct_trans {s1 s2 s3 : Tree} (h1 : SameStruct s1 s2)
    (h2 : SameStruct s2 s3) : SameStruct s1 s3 :=
  ⟨h2.1.trans h1.1, h2.2.1.trans h1.2.1, h2.2.2.1.trans h1.2.2.1,
   h2.2.2.2.1.trans h1.2.2.2.1,
   fun k => (h2.2.2.2.2 k).trans (h1.2.2.2.2 k)⟩

theorem samestruct_getU_strip {st st' : Tree} (h : SameStruct st st')
    (k : Nat) : (getU st' k).strip = (getU st k).strip := by
  have := h.2.2.2.2 k
  simp only [getU]
  cases h1 : lookupA st.nodes k with
  | none =>
      rw [h1] at this
      cases h2 : lookupA st'.nodes k with
      | none => rfl
      | some m => rw [h2] at this; simp at this
  | some n =>
      rw [h1] at this
      cases h2 : lookupA st'.nodes k with
      | none => rw [h2] at this; simp at this
      | some m =>
          rw [h2] at this
          simp at this
          simpa using this

theorem strip_size (n : Node) : n.strip.size = n.size := rfl

theorem strip_pos (n : Node) : n.strip.pos = n.pos := rfl

theorem strip_children (n : Node) : n.strip.children = n.children := rfl

theorem strip_direction (n : Node) : n.strip.direction = n.direction := rfl

theorem strip_world_pos (n : Node) : n.strip.world_pos = n.world_pos := rfl

theorem geompred_strip {p : Node → Bool} (hp : GeomPred p) {n m : Node}
    (h : n.strip = m.strip) : p n = p m := by
  refine hp n m ?_ ?_ ?_ ?_
  · rw [← strip_size n, ← strip_size m, h]
  · rw [← strip_pos n, ← strip_pos m, h]
  · rw [← strip_direction n, ← strip_direction m, h]
  · rw [← strip_world_pos n, ← strip_world_pos m, h]

theorem samestruct_children {st st' : Tree} (h : SameStruct st st')
    (k : Nat) : (getU st' k).children = (getU st k).children := by
  have h2 := congrArg Node.children (samestruct_getU_strip h k)
  exact h2

theorem samestruct_size {st st' : Tree} (h : SameStruct st st')
    (k : Nat) : (getU st' k).size = (getU st k).size := by
  have h2 := congrArg Node.size (samestruct_getU_strip h k)
  exact h2

theorem fixedpt_samestruct {p : Node → Bool} {st st' : Tree}
    (hp : GeomPred p) (h : SameStruct st st') : ∀ {k},
    Fixedpt p st k → Fixedpt p st' k := by
  intro k hf
  induction hf with
  | leaf hch hsz =>
      refine Fixedpt.leaf (by rw [samestruct_children h]; exact hch) ?_
      intro hpk
      rw [samestruct_size h, h.2.1]
      refine hsz ?_
      rw [← hpk]
      exact (geompred_strip hp (samestruct_getU_strip h _)).symm
  | branch hch hpk hbnds _ ih =>
      refine Fixedpt.branch (by rw [samestruct_children h]; exact hch) ?_
        ?_ ih
      · rw [← hpk]
        exact geompred_strip hp (samestruct_getU_strip h _)
      · intro c hc
        rw [h.1]
        exact hbnds c hc

theorem samestruct_updateA {st : Tree} {k : Nat} {f : Node → Node}
    (hf : ∀ n, (f n).strip = n.strip) :
    SameStruct st { st with nodes := updateA st.nodes k f } := by
  refine ⟨rfl, rfl, rfl, updateA_map_fst _ _ _, ?_⟩
  intro j
  show (lookupA (updateA st.nodes k f) j).map Node.strip = _
  rw [lookupA_updateA]
  by_cases hj : j = k
  · rw [if_pos hj, hj]
    cases lookupA st.nodes k with
    | none => rfl
    | some n => simp [hf n]
  · rw [if_neg hj]

theorem uns_samestruct (st : Tree) (nk : Nat) (s : ℚ) (d : List Int) :
    SameStruct st (update_neighbor_size st nk s d).2 := by
  simp only [update_neighbor_size]
  cases neighbor_index d with
  | none => exact samestruct_refl st
  | some i =>
      simp only
      by_cases h1 : (getU st nk).neighbor_sizes.getD i 0 ≠ s
      · rw [if_pos h1]
        by_cases h2 : (getU st nk).size < s
        · rw [if_pos h2]
          exact samestruct_updateA (fun n => rfl)
        · rw [if_neg h2]
          by_cases h3 : (getU st nk).neighbor_sizes.getD i 0 ≠ (getU st nk).size
          · rw [if_pos h3]
            exact samestruct_updateA (fun n => rfl)
          · rw [if_neg h3]
            exact samestruct_refl st
      · rw [if_neg h1]
        exact samestruct_refl st

theorem foldl_samestruct {α β : Type _} (g : (Tree × β) → α → (Tree × β))
    (hg : ∀ acc a, SameStruct acc.1 (g acc a).1) :
    ∀ (l : List α) (acc : Tree × β),
      SameStruct acc.1 (l.foldl g acc).1 := by
  intro l
  induction l with
  | nil => intro acc; exact samestruct_refl _
  | cons a tl ih =>
      intro acc
      exact samestruct_trans (hg acc a) (ih (g acc a))

theorem strip_foldl_set (pairs : List (List Int × ℚ)) (n : Node) :
    (pairs.foldl (fun m ds =>
      match neighbor_index ds.1 with
      | some index =>
          { m with neighbor_sizes := m.neighbor_sizes.set index ds.2 }
      | none => m) n).strip = n.strip := by
  induction pairs generalizing n with
  | nil => rfl
  | cons a tl ih =>
      rw [List.foldl_cons]
      cases neighbor_index a.1 with
      | none => exact ih n
      | some i =>
          simp only
          rw [ih]
          rfl

theorem update_neighbor_sizes_samestruct (D : Nat) (st : Tree) (k : Nat)
    (visited : Visited) :
    SameStruct st (update_neighbor_sizes D st k visited).1 := by
  simp only [update_neighbor_sizes]
  refine samestruct_trans (foldl_samestruct _ ?_ _ _)
    (samestruct_updateA ?_)
  · intro acc a
    dsimp only
    exact foldl_samestruct _ (fun acc2 nk => uns_samestruct _ _ _ _) _ _
  · intro n
    exact strip_foldl_set _ n

theorem planet_update_neighbor_sizes_samestruct (st : Tree) (k : Nat)
    (visited : Visited) :
    SameStruct st (planet_update_neighbor_sizes st k visited).1 := by
  simp only [planet_update_neighbor_sizes]
  refine samestruct_trans (foldl_samestruct _ ?_ _ _)
    (samestruct_updateA ?_)
  · intro acc a
    dsimp only
    exact foldl_samestruct _ (fun acc2 nk => uns_samestruct _ _ _ _) _ _
  · intro n
    exact strip_foldl_set _ n

theorem update_events_samestruct (D : Nat) (st : Tree)
    (events : List TreeEvent) :
    SameStruct st (update_neighbors_from_events D st events) := by
  simp only [update_neighbors_from_events]
  refine foldl_samestruct _ ?_ _ _
  intro acc event
  cases event with
  | Grown parent children =>
      dsimp only
      exact foldl_samestruct _
        (fun acc2 child => update_neighbor_sizes_samestruct D acc2.1 child
          acc2.2) _ _
  | Shrunk retained removed =>
      exact update_neighbor_sizes_samestruct D acc.1 retained acc.2
  | NeighborSizesChanged _ => exact samestruct_refl _

theorem planet_update_events_samestruct (st : Tree)
    (events : List TreeEvent) :
    SameStruct st (planet_update_neighbors_from_events st events) := by
  simp only [planet_update_neighbors_from_events]
  refine foldl_samestruct _ ?_ _ _
  intro acc event
  cases event with
  | Grown parent children =>
      dsimp only
      exact foldl_samestruct _
        (fun acc2 child => planet_update_neighbor_sizes_samestruct acc2.1
          child acc2.2) _ _
  | Shrunk retained removed =>
      exact planet_update_neighbor_sizes_samestruct acc.1 retained acc.2
  | NeighborSizesChanged _ => exact samestruct_refl _

/--
Core idempotence: a state obtained by a completed refinement pass from a
well-formed tree, possibly followed by a structure-preserving
neighbour-size pass, is a fixpoint of the loop: with enough fuel, a second
run of the same loop returns no events and the state unchanged.
-/
theorem insert_fixed_core
    (cc : Tree → Nat → List Nat × Tree)
    (ge : Tree → List TreeEvent → List ℚ → Nat → List Nat → List TreeEvent)
    (hcc : CCSpec cc) (p : Node → Bool) (hp : GeomPred p)
    {st0 : Tree} {kss : List (List Nat)} {fuel : Nat}
    {ev1 : List TreeEvent} {stA st1 : Tree}
    (hnd : (st0.nodes.map Prod.fst).Nodup)
    (hbound : ∀ j ∈ st0.nodes.map Prod.fst, j < st0.next_key)
    (hF : List.Forall₂ (Subtree st0.nodes st0.next_key) st0.roots.reverse
      kss)
    (hflat : kss.flatten.Nodup)
    (heq : insert_loop cc ge fuel p st0 st0.roots.reverse [] =
      some (ev1, stA))
    (hSS : SameStruct stA st1) :
    ∃ bound, ∀ fuel2, bound ≤ fuel2 →
      insert_loop cc ge fuel2 p st1 st1.roots.reverse [] =
        some ([], st1) := by
  obtain ⟨c1, c2, c3, c4, c5, c6, c7⟩ :=
    insert_loop_spec cc ge hcc p hp fuel st0 st0.roots.reverse kss [] ev1
      stA hnd hbound hF hflat heq
  have hroots1 : st1.roots = st0.roots := hSS.2.2.1.trans c5
  have hfix1 : ∀ j ∈ st1.roots.reverse, Fixedpt p st1 j := by
    intro j hj
    rw [hroots1] at hj
    exact fixedpt_samestruct hp hSS (c7 j hj)
  have hnd1 : (st1.nodes.map Prod.fst).Nodup := by
    rw [hSS.2.2.2.1]
    exact c1
  obtain ⟨ws, hlen, hz⟩ := exists_list_of_forall_mem
    (fun j hj => fixedpt_weighs (hfix1 j hj))
  refine ⟨ws.sum, fun fuel2 hf2 => ?_⟩
  exact insert_loop_fixed cc ge p fuel2 st1 st1.roots.reverse ws [] hnd1
    (List.forall₂_iff_zip.mpr ⟨hlen, fun hp2 => hz _ hp2⟩) hfix1 hf2

/-! ### Size invariants of the insert pass (for C1) -/

/-- The removal work list only deletes entries: a key still live afterwards
holds the very node it held before. -/
theorem remove_loop_lookup_sub :
    ∀ (fuel : Nat) (ns : Arena) (pending removed : List Nat)
      (r : List Nat × Arena),
      remove_loop fuel ns pending removed = some r →
      ∀ j n, lookupA r.2 j = some n → lookupA ns j = some n := by
  intro fuel
  induction fuel with
  | zero =>
      intro ns pending removed r heq j n hl
      cases pending with
      | nil =>
          simp only [remove_loop] at heq
          cases heq
          exact hl
      | cons k rest => simp [remove_loop] at heq
  | succ f ih =>
      intro ns pending removed r heq j n hl
      cases pending with
      | nil =>
          simp only [remove_loop] at heq
          cases heq
          exact hl
      | cons k rest =>
          simp only [remove_loop] at heq
          cases hlk : lookupA ns k with
          | none =>
              rw [hlk] at heq
              exact ih ns rest removed r heq j n hl
          | some nn =>
              rw [hlk] at heq
              have heq2 : (if ((nn.children.getD []).isEmpty : Bool) = true
                  then remove_loop f (removeA ns k) rest (removed ++ [k])
                  else remove_loop f (removeA ns k)
                    ((nn.children.getD []).reverse ++ rest) removed) =
                  some r := heq
              by_cases hc : ((nn.children.getD []).isEmpty : Bool) = true
              · rw [if_pos hc] at heq2
                have := ih _ _ _ _ heq2 j n hl
                rw [lookupA_removeA] at this
                by_cases hjk : j = k
                · rw [if_pos hjk] at this
                  cases this
                · rwa [if_neg hjk] at this
              · rw [if_neg hc] at heq2
                have := ih _ _ _ _ heq2 j n hl
                rw [lookupA_removeA] at this
                by_cases hjk : j = k
                · rw [if_pos hjk] at this
                  cases this
                · rwa [if_neg hjk] at this

/-- `shrink_event` keeps the bookkeeping fields and, for every key still
live afterwards, a node of unchanged size (only `children` may have been
cleared on the retained parent). -/
theorem shrink_event_fields {st : Tree} {events : List TreeEvent} {k : Nat}
    {r : List TreeEvent × Tree} (h : shrink_event st events k = some r) :
    r.2.next_key = st.next_key ∧ r.2.min_size = st.min_size ∧
    r.2.roots = st.roots ∧
    ∀ j n, lookupA r.2.nodes j = some n →
      ∃ n0, lookupA st.nodes j = some n0 ∧ n.size = n0.size := by
  simp only [shrink_event, remove_children_recursively] at h
  cases hrl : remove_loop
      (((getU st k).children.getD []).length +
        arenaMeasure (updateA st.nodes k fun n => { n with children := none })
          + 1)
      (updateA st.nodes k fun n => { n with children := none })
      ((getU st k).children.getD []).reverse [] with
  | none => rw [hrl] at h; cases h
  | some r2 =>
      rw [hrl] at h
      simp only [Option.map_some'] at h
      cases h
      refine ⟨rfl, rfl, rfl, ?_⟩
      intro j n hl
      have := remove_loop_lookup_sub _ _ _ _ _ hrl j n hl
      rw [lookupA_updateA] at this
      by_cases hjk : j = k
      · rw [if_pos hjk] at this
        cases hlk : lookupA st.nodes k with
        | none => rw [hlk] at this; simp at this
        | some n0 =>
            rw [hlk] at this
            simp only [Option.map_some'] at this
            refine ⟨n0, by rw [hjk]; exact hlk, ?_⟩
            have h7 := Option.some.inj this
            rw [← h7]
      · rw [if_neg hjk] at this
        exact ⟨n, this, rfl⟩

/--
The central size invariant: any property of node sizes that is preserved by
halving sizes above `min_size` is an invariant of the insert work-list loop
(for any `create_children` satisfying `CCSpec`), provided `min_size` is
positive.
-/
theorem insert_loop_size_inv
    (cc : Tree → Nat → List Nat × Tree)
    (ge : Tree → List TreeEvent → List ℚ → Nat → List Nat → List TreeEvent)
    (hcc : CCSpec cc) (Q : ℚ → Prop) (μ : ℚ) (hμ : 0 < μ)
    (hQ : ∀ s, Q s → μ < s → Q (s / 2)) :
    ∀ (fuel : Nat) (f : Node → Bool) (st : Tree) (pending : List Nat)
      (ev : List TreeEvent) (r : List TreeEvent × Tree),
      st.min_size = μ →
      (∀ j ∈ st.nodes.map Prod.fst, j < st.next_key) →
      (∀ k n, lookupA st.nodes k = some n → Q n.size) →
      insert_loop cc ge fuel f st pending ev = some r →
      ∀ k n, lookupA r.2.nodes k = some n → Q n.size := by
  intro fuel
  induction fuel with
  | zero =>
      intro f st pending ev r hmin hbound hQinv heq
      cases pending with
      | nil =>
          simp only [insert_loop] at heq
          cases heq
          exact hQinv
      | cons k rest => simp [insert_loop] at heq
  | succ fu ih =>
      intro f st pending ev r hmin hbound hQinv heq
      cases pending with
      | nil =>
          simp only [insert_loop] at heq
          cases heq
          exact hQinv
      | cons k rest =>
          simp only [insert_loop] at heq
          by_cases hpk : f (getU st k) = true
          · rw [if_pos hpk] at heq
            cases hch : (getU st k).children with
            | some children =>
                rw [hch] at heq
                exact ih f st _ ev r hmin hbound hQinv heq
            | none =>
                rw [hch] at heq
                by_cases hsz : st.min_size < (getU st k).size
                · rw [if_pos hsz] at heq
                  cases hlk : lookupA st.nodes k with
                  | none =>
                      exfalso
                      have hdu : getU st k = defaultNode := by
                        simp [getU, hlk]
                      rw [hdu, hmin] at hsz
                      have h0 : defaultNode.size = 0 := rfl
                      rw [h0] at hsz
                      linarith
                  | some n0 =>
                      have hgu : getU st k = n0 := by simp [getU, hlk]
                      have hklt : k < st.next_key :=
                        hbound k (lookupA_isSome.mp (by simp [hlk]))
                      obtain ⟨m, hm0, hkeys, hnk2, hmin2, hroots2, hfst2,
                        hframe2, hkframe2, hnew2⟩ := hcc st k
                      have hbound2 : ∀ j ∈ (cc st k).2.nodes.map Prod.fst,
                          j < (cc st k).2.next_key := by
                        rw [hfst2, hnk2]
                        intro j hj
                        rcases List.mem_append.mp hj with hj | hj
                        · have := hbound j hj
                          omega
                        · have := (List.mem_range'_1.mp hj).2
                          omega
                      have hQinv2 : ∀ j n,
                          lookupA (cc st k).2.nodes j = some n → Q n.size := by
                        intro j n hj
                        have hjmem : j ∈ (cc st k).2.nodes.map Prod.fst :=
                          lookupA_isSome.mp (by simp [hj])
                        rw [hfst2] at hjmem
                        rcases List.mem_append.mp hjmem with hold | hnewm
                        · by_cases hjk : j = k
                          · have hpar := hkframe2 hklt
                            rw [hjk] at hj
                            rw [hj, hlk] at hpar
                            simp only [Option.map_some'] at hpar
                            cases hpar
                            exact hQinv k n0 hlk
                          · have hfr := hframe2 j (hbound j hold) hjk
                            rw [hj] at hfr
                            exact hQinv j n hfr.symm
                        · obtain ⟨hn1, hn2⟩ := List.mem_range'_1.mp hnewm
                          obtain ⟨nn, hnn, _, _, hsize⟩ :=
                            hnew2 hbound hklt (j - st.next_key) (by omega)
                          have hax : st.next_key + (j - st.next_key) = j := by
                            omega
                          rw [hax] at hnn
                          rw [hj] at hnn
                          cases hnn
                          rw [hsize, hgu]
                          refine hQ n0.size (hQinv k n0 hlk) ?_
                          rw [hmin, hgu] at hsz
                          exact hsz
                      exact ih f (cc st k).2 _ _ r (by rw [hmin2, hmin])
                        hbound2 hQinv2 heq
                · rw [if_neg hsz] at heq
                  exact ih f st rest ev r hmin hbound hQinv heq
          · rw [if_neg hpk] at heq
            cases hse : shrink_event st ev k with
            | none => rw [hse] at heq; cases heq
            | some r2 =>
                rw [hse] at heq
                obtain ⟨hnx, hmn, _, hlook⟩ := shrink_event_fields hse
                have hbound2 : ∀ j ∈ r2.2.nodes.map Prod.fst,
                    j < r2.2.next_key := by
                  intro j hj
                  obtain ⟨n, hn⟩ :=
                    Option.isSome_iff_exists.mp (lookupA_isSome.mpr hj)
                  obtain ⟨n0, hn0, _⟩ := hlook j n hn
                  rw [hnx]
                  exact hbound j (lookupA_isSome.mp (by simp [hn0]))
                have hQinv2 : ∀ j n,
                    lookupA r2.2.nodes j = some n → Q n.size := by
                  intro j n hn
                  obtain ⟨n0, hn0, hsz0⟩ := hlook j n hn
                  rw [hsz0]
                  exact hQinv j n0 hn0
                exact ih f r2.2 rest r2.1 r (by rw [hmn, hmin])
                  hbound2 hQinv2 heq

/-- Sizes seen through `SameStruct`: a live key on the right is live on the
left with the same size. -/
theorem samestruct_lookup_size {st st' : Tree} (h : SameStruct st st')
    {k : Nat} {n : Node} (hl : lookupA st'.nodes k = some n) :
    ∃ n0, lookupA st.nodes k = some n0 ∧ n0.size = n.size := by
  have h5 := h.2.2.2.2 k
  rw [hl] at h5
  cases hl0 : lookupA st.nodes k with
  | none => rw [hl0] at h5; simp at h5
  | some n0 =>
      rw [hl0] at h5
      simp only [Option.map_some'] at h5
      refine ⟨n0, rfl, ?_⟩
      have h6 := Option.some.inj h5
      have hs := congrArg Node.size h6
      simpa [Node.strip] using hs.symm

/-! ### Claim C1 -/

/--
C1 (counterexample): the refinement floor `∀ leaf L, L.size ≥ min_size` is
violated when the root size is not `min_size` times a power of two.  On a
quad tree `new(1, 3/2, (0,0))` with the always-true predicate, the pass
creates children of size `3/4 < 1 = min_size`; key 1 is such a leaf.
-/
theorem claim_C1_counterexample :
    ((insert_and_update_neighbors 2 20 (fun _ => true)
        (ntree_new 2 1 (3 / 2) [0, 0])).map (fun r =>
      (lookupA r.2.nodes 1).map (fun n =>
        (n.children.isNone, decide (n.size < r.2.min_size))))) =
      some (some (true, true)) := by
  set_option maxRecDepth 100000 in
  with_unfolding_all rfl

/--
C1 (amended): for both the generic quad/oct insert pass and the planet
insert pass, sizes can only be halved while above `min_size`, so (a) every
node of the result — leaves included — has size strictly greater than
`min_size / 2`, and (b) when every starting node's size is `min_size` times
a power of two (as with the customary dyadic root), every node of the
result has size at least `min_size`: the floor as specified.
-/
theorem claim_C1_theorem :
    (∀ (D fuel : Nat) (p : Node → Bool) (st : Tree)
        (ev : List TreeEvent) (st' : Tree),
      0 < st.min_size →
      (∀ j ∈ st.nodes.map Prod.fst, j < st.next_key) →
      insert_and_update_neighbors D fuel p st = some (ev, st') →
      ((∀ k n, lookupA st.nodes k = some n → st.min_size / 2 < n.size) →
        ∀ k n, lookupA st'.nodes k = some n → st.min_size / 2 < n.size) ∧
      ((∀ k n, lookupA st.nodes k = some n →
          ∃ i : ℕ, n.size = st.min_size * 2 ^ i) →
        ∀ k n, lookupA st'.nodes k = some n → st.min_size ≤ n.size)) ∧
    (∀ (fuel : Nat) (p : Node → Bool) (st : Tree)
        (ev : List TreeEvent) (st' : Tree),
      0 < st.min_size →
      (∀ j ∈ st.nodes.map Prod.fst, j < st.next_key) →
      planet_insert_and_update_neighbors fuel p st = some (ev, st') →
      ((∀ k n, lookupA st.nodes k = some n → st.min_size / 2 < n.size) →
        ∀ k n, lookupA st'.nodes k = some n → st.min_size / 2 < n.size) ∧
      ((∀ k n, lookupA st.nodes k = some n →
          ∃ i : ℕ, n.size = st.min_size * 2 ^ i) →
        ∀ k n, lookupA st'.nodes k = some n → st.min_size ≤ n.size)) := by
  have main : ∀ (cc : Tree → Nat → List Nat × Tree)
      (ge : Tree → List TreeEvent → List ℚ → Nat → List Nat → List TreeEvent),
      CCSpec cc →
      ∀ (fuel : Nat) (p : Node → Bool) (st : Tree)
        (rr : List TreeEvent × Tree) (st' : Tree),
      0 < st.min_size →
      (∀ j ∈ st.nodes.map Prod.fst, j < st.next_key) →
      insert_loop cc ge fuel p st st.roots.reverse [] = some rr →
      SameStruct rr.2 st' →
      ((∀ k n, lookupA st.nodes k = some n → st.min_size / 2 < n.size) →
        ∀ k n, lookupA st'.nodes k = some n → st.min_size / 2 < n.size) ∧
      ((∀ k n, lookupA st.nodes k = some n →
          ∃ i : ℕ, n.size = st.min_size * 2 ^ i) →
        ∀ k n, lookupA st'.nodes k = some n → st.min_size ≤ n.size) := by
    intro cc ge hcc fuel p st rr st' hμ hbound heq hSS
    constructor
    · intro h0 k n hl
      obtain ⟨n0, hl0, hsz⟩ := samestruct_lookup_size hSS hl
      rw [← hsz]
      refine insert_loop_size_inv cc ge hcc
        (fun s => st.min_size / 2 < s) st.min_size hμ ?_ fuel p st
        st.roots.reverse [] rr rfl hbound h0 heq k n0 hl0
      intro s hs hlt
      linarith
    · intro h0 k n hl
      obtain ⟨n0, hl0, hsz⟩ := samestruct_lookup_size hSS hl
      rw [← hsz]
      have hdy := insert_loop_size_inv cc ge hcc
        (fun s => ∃ i : ℕ, s = st.min_size * 2 ^ i) st.min_size hμ ?_
        fuel p st st.roots.reverse [] rr rfl hbound h0 heq k n0 hl0
      · obtain ⟨i, hi⟩ := hdy
        rw [hi]
        have h1 : (1 : ℚ) ≤ 2 ^ i := one_le_pow₀ (by norm_num)
        nlinarith
      · intro s hs hlt
        obtain ⟨i, hi⟩ := hs
        cases i with
        | zero =>
            rw [hi, pow_zero, mul_one] at hlt
            exact absurd hlt (lt_irrefl _)
        | succ j =>
            refine ⟨j, ?_⟩
            rw [hi, pow_succ]
            ring
  constructor
  · intro D fuel p st ev st' hμ hbound heq
    simp only [insert_and_update_neighbors] at heq
    cases h : insertN D fuel p st with
    | none => rw [h] at heq; cases heq
    | some r =>
        obtain ⟨evA, stA⟩ := r
        rw [h] at heq
        simp only [Option.map_some'] at heq
        cases heq
        simp only [insertN] at h
        exact main (create_children D) grow_event (ccspec_create_children D)
          fuel p st (ev, stA) _ hμ hbound h
          (update_events_samestruct D stA ev)
  · intro fuel p st ev st' hμ hbound heq
    simp only [planet_insert_and_update_neighbors] at heq
    cases h : insertP fuel p st with
    | none => rw [h] at heq; cases heq
    | some r =>
        obtain ⟨evA, stA⟩ := r
        rw [h] at heq
        simp only [Option.map_some'] at heq
        cases heq
        simp only [insertP] at h
        exact main planet_create_children planet_grow_event
          ccspec_planet_create_children fuel p st (ev, stA) _ hμ hbound h
          (planet_update_events_samestruct stA ev)

/--
C1 (witness): the amended floor applied to a dyadic quad tree
`new(1, 4, (0,0))` fully refined by the always-true predicate: every node
of the result keeps size at least `min_size = 1`.
-/
theorem claim_C1_witness :
    ∃ ev st', insert_and_update_neighbors 2 30 (fun _ => true)
        (ntree_new 2 1 4 [0, 0]) = some (ev, st') ∧
      ∀ k n, lookupA st'.nodes k = some n →
        (ntree_new 2 1 4 [0, 0]).min_size ≤ n.size := by
  refine ⟨((insert_and_update_neighbors 2 30 (fun _ => true)
      (ntree_new 2 1 4 [0, 0])).getD ([], ntree_new 2 1 4 [0, 0])).1,
    ((insert_and_update_neighbors 2 30 (fun _ => true)
      (ntree_new 2 1 4 [0, 0])).getD ([], ntree_new 2 1 4 [0, 0])).2,
    ?_, ?_⟩
  · set_option maxRecDepth 100000 in
    with_unfolding_all rfl
  · refine (claim_C1_theorem.1 2 30 (fun _ => true) (ntree_new 2 1 4 [0, 0])
      (((insert_and_update_neighbors 2 30 (fun _ => true)
        (ntree_new 2 1 4 [0, 0])).getD ([], ntree_new 2 1 4 [0, 0])).1)
      _ zero_lt_one (by decide) ?_).2 ?_
    · set_option maxRecDepth 100000 in
      show insert_and_update_neighbors 2 30 (fun _ => true)
          (ntree_new 2 1 4 [0, 0]) =
        some (((insert_and_update_neighbors 2 30 (fun _ => true)
            (ntree_new 2 1 4 [0, 0])).getD ([], ntree_new 2 1 4 [0, 0])).1,
          ((insert_and_update_neighbors 2 30 (fun _ => true)
            (ntree_new 2 1 4 [0, 0])).getD ([], ntree_new 2 1 4 [0, 0])).2)
      with_unfolding_all rfl
    · intro k n h
      rw [show (ntree_new 2 1 4 [0, 0]).nodes =
        [(0, from_bounds 2 4 [0, 0])] from rfl, lookupA_cons] at h
      by_cases hk : 0 = k
      · rw [if_pos hk] at h
        cases h
        exact ⟨2, by norm_num [from_bounds, ntree_new]⟩
      · rw [if_neg hk] at h
        cases h

/-! ### Claim C3 -/

/--
C3 (counterexample): `removed` does not list every deleted node.  A quad
tree `new(1, 10, (0,0))` refined into a two-level subtree (root 0 with
children 1–4, child 4 subdivided into 5–8) and then fully shrunk emits
`Shrunk 0 [8,7,6,5,3,2,1]`: the interior branch node 4 is deleted from the
arena (live before, dead after) yet absent from the `removed` list.
-/
theorem claim_C3_counterexample :
    ((insert_and_update_neighbors 2 40 (fun _ => false)
          (((insert_and_update_neighbors 2 40
              (fun n => decide ((5 : ℚ) < n.size) ||
                (decide (n.pos = [5 / 2, 5 / 2]) &&
                  decide ((2 : ℚ) < n.size)))
              (ntree_new 2 1 10 [0, 0])).getD
            ([], ntree_new 2 1 10 [0, 0])).2)).map
        (fun r => (r.1, (lookupA r.2.nodes 4).isSome)),
      (lookupA ((insert_and_update_neighbors 2 40
          (fun n => decide ((5 : ℚ) < n.size) ||
            (decide (n.pos = [5 / 2, 5 / 2]) &&
              decide ((2 : ℚ) < n.size)))
          (ntree_new 2 1 10 [0, 0])).getD
        ([], ntree_new 2 1 10 [0, 0])).2.nodes 4).isSome) =
      (some ([TreeEvent.Shrunk 0 [8, 7, 6, 5, 3, 2, 1]], false), true) ∧
    4 ∉ [8, 7, 6, 5, 3, 2, 1] := by
  refine ⟨?_, by decide⟩
  set_option maxRecDepth 200000 in
  with_unfolding_all rfl

/--
C3 (amended): when the refinement pass shrinks a branch `B` (a node with a
nonempty `children` list) over a well-formed subtree, exactly one `Shrunk`
event is appended, its `retained` field is `B` — which is a leaf
afterwards — every proper descendant of `B` is deleted from the arena, and
its `removed` list contains exactly the keys of the deleted nodes that were
*leaves*: deleted interior branch nodes are not listed.
-/
theorem claim_C3_theorem :
    ∀ (st : Tree) (events : List TreeEvent) (k : Nat) (ks : List Nat),
      (st.nodes.map Prod.fst).Nodup →
      Subtree st.nodes st.next_key k ks →
      ks.Nodup →
      (getU st k).children.getD [] ≠ [] →
      ∃ removed st',
        shrink_event st events k =
          some (events ++ [TreeEvent.Shrunk k removed], st') ∧
        (getU st' k).children = none ∧
        (∀ j, j ∈ ks → j ≠ k → lookupA st'.nodes j = none) ∧
        (∀ j, j ∉ ks → lookupA st'.nodes j = lookupA st.nodes j) ∧
        (∀ j, j ∈ removed ↔ j ∈ ks ∧ j ≠ k ∧
          ∃ n, lookupA st.nodes j = some n ∧ n.children.getD [] = []) := by
  intro st events k ks hnd hsub hksnd hne
  obtain ⟨removed, st', hrcr, _, _, _, hfr, hdead, hlookk, _, hrm, hemp⟩ :=
    remove_children_spec hnd hsub hksnd
  have hRne : removed ≠ [] := fun hh => hne (hemp.mp hh)
  have hRfalse : removed.isEmpty = false := by
    cases removed with
    | nil => exact absurd rfl hRne
    | cons a tl => rfl
  refine ⟨removed, st', ?_, ?_, hdead, hfr, hrm⟩
  · simp only [shrink_event, hrcr, Option.map_some', hRfalse]
    rfl
  · obtain ⟨n, css, hlook, _, _, _, _⟩ := subtree_cases hsub
    rw [getU, hlookk, hlook]
    rfl

/--
C3 (witness): the amended statement applied to a concrete three-node chain
`0 → 1 → 2`: shrinking at 0 deletes both 1 (an interior branch, not
listed) and 2 (a leaf, listed), and 0 becomes a leaf.
-/
theorem claim_C3_witness :
    ∃ removed st',
      shrink_event
        { nodes := [
            (0, { size := 4, pos := [0, 0], neighbor_sizes := [],
                  parent := none, children := some [1],
                  direction := .dnone, world_pos := [] }),
            (1, { size := 2, pos := [0, 0], neighbor_sizes := [],
                  parent := some 0, children := some [2],
                  direction := .dnone, world_pos := [] }),
            (2, { size := 1, pos := [0, 0], neighbor_sizes := [],
                  parent := some 1, children := none,
                  direction := .dnone, world_pos := [] })],
          next_key := 3, min_size := 1, roots := [0] } [] 0 =
        some ([TreeEvent.Shrunk 0 removed], st') ∧
      2 ∈ removed ∧ 1 ∉ removed ∧
      lookupA st'.nodes 1 = none ∧ (getU st' 0).children = none := by
  obtain ⟨removed, st', h1, h2, h3, _, h5⟩ :=
    claim_C3_theorem
      { nodes := [
          (0, { size := 4, pos := [0, 0], neighbor_sizes := [],
                parent := none, children := some [1],
                direction := .dnone, world_pos := [] }),
          (1, { size := 2, pos := [0, 0], neighbor_sizes := [],
                parent := some 0, children := some [2],
                direction := .dnone, world_pos := [] }),
          (2, { size := 1, pos := [0, 0], neighbor_sizes := [],
                parent := some 1, children := none,
                direction := .dnone, world_pos := [] })],
        next_key := 3, min_size := 1, roots := [0] } [] 0 [0, 1, 2]
      (by decide)
      (@Subtree.branch _ 3 0 _ [1] [[1, 2]] rfl rfl (by decide) rfl
        (by
          intro p hp
          simp only [List.zip_cons_cons, List.zip_nil_right,
            List.mem_cons, List.not_mem_nil, or_false] at hp
          rw [hp]
          exact @Subtree.branch _ 3 1 _ [2] [[2]] rfl rfl (by decide) rfl
            (by
              intro q hq
              simp only [List.zip_cons_cons, List.zip_nil_right,
                List.mem_cons, List.not_mem_nil, or_false] at hq
              rw [hq]
              exact Subtree.leaf rfl rfl)))
      (by decide) (by decide)
  refine ⟨removed, st', h1, ?_, ?_, h3 1 (by decide) (by decide), h2⟩
  · exact (h5 2).mpr ⟨by decide, by decide, _, rfl, rfl⟩
  · intro hmem
    obtain ⟨_, _, n, hn, hc⟩ := (h5 1).mp hmem
    rw [show lookupA
        [(0, { size := 4, pos := [0, 0], neighbor_sizes := [],
               parent := none, children := some [1],
               direction := .dnone, world_pos := ([] : List ℚ) }),
         (1, { size := 2, pos := [0, 0], neighbor_sizes := [],
               parent := some 0, children := some [2],
               direction := .dnone, world_pos := [] }),
         (2, { size := 1, pos := [0, 0], neighbor_sizes := [],
               parent := some 1, children := none,
               direction := .dnone, world_pos := [] })] 1 =
      some { size := 2, pos := [0, 0], neighbor_sizes := [],
             parent := some 0, children := some [2],
             direction := .dnone, world_pos := [] } from rfl] at hn
    cases hn
    cases hc

/-! ### Claim C4 -/

/--
C4 (counterexample): no construction precondition is checked.  With
`min_size = -1 ≤ 0` and `root size = -2 < min_size` — inputs the claim says
must be rejected — `NTree::new` still constructs a one-node tree carrying
those values, and `PlanetTree::new` still constructs its six face roots.
-/
theorem claim_C4_counterexample :
    ((ntree_new 2 (-1) (-2) [0, 0]).nodes.map Prod.fst = [0] ∧
     (ntree_new 2 (-1) (-2) [0, 0]).min_size = -1 ∧
     (getU (ntree_new 2 (-1) (-2) [0, 0]) 0).size = -2) ∧
    (planet_new (-1) (-2) [0, 0, 0]).roots = [0, 1, 2, 3, 4, 5] := by
  exact ⟨⟨rfl, rfl, rfl⟩, by with_unfolding_all rfl⟩

/--
C4 (amended): construction is unconditional — neither `NTree::new` nor
`PlanetTree::new` validates its arguments or has an error path.  For every
input (including `min_size ≤ 0` and `size < min_size`), `NTree::new` yields
a tree whose arena holds exactly the root node `from_bounds(size, pos)`
under key 0, and `PlanetTree::new` yields a tree with exactly the six face
roots 0–5, each a leaf of the given size.
-/
theorem claim_C4_theorem :
    (∀ (D : Nat) (m s : ℚ) (p : List ℚ),
      (ntree_new D m s p).nodes.map Prod.fst = [0] ∧
      (ntree_new D m s p).roots = [0] ∧
      (ntree_new D m s p).min_size = m ∧
      lookupA (ntree_new D m s p).nodes 0 = some (from_bounds D s p)) ∧
    (∀ (m s : ℚ) (p : List ℚ),
      (planet_new m s p).roots = [0, 1, 2, 3, 4, 5] ∧
      (planet_new m s p).min_size = m ∧
      (planet_new m s p).next_key = 6 ∧
      (planet_new m s p).nodes.map Prod.fst = [0, 1, 2, 3, 4, 5] ∧
      ∀ k, k < 6 → ∃ n, lookupA (planet_new m s p).nodes k = some n ∧
        n.size = s ∧ n.children = none) := by
  refine ⟨fun D m s p => ⟨rfl, rfl, rfl, rfl⟩,
    fun m s p => ⟨rfl, rfl, rfl, rfl, ?_⟩⟩
  intro k hk
  interval_cases k
  · exact ⟨_, rfl, rfl, rfl⟩
  · exact ⟨_, rfl, rfl, rfl⟩
  · exact ⟨_, rfl, rfl, rfl⟩
  · exact ⟨_, rfl, rfl, rfl⟩
  · exact ⟨_, rfl, rfl, rfl⟩
  · exact ⟨_, rfl, rfl, rfl⟩

/-! ### Claim C5 -/

/--
C5 (confirmed): boundary behaviour of the neighbour search.  (a) For the
generic quad/oct tree, whenever the ascent exits the root with a
still-nonzero working direction, `get_neighbors` returns the empty list
(concretely: a lone quad root queried towards `(+1,0)`).  (b) On a planet
tree of radius 10 whose only subdivision is the Y+ face root (children
6–9), the Y+ children 7 and 9 touching the +X edge queried with direction
`(+1,0)` both return exactly the X+ face root (key 1): the query transfers
to the adjacent cube face instead of coming back empty.
-/
theorem claim_C5_theorem :
    (∀ (D : Nat) (st : Tree) (node_key : Nat) (direction : List Int)
        (node : Nat) (wd : List Int) (nds : List (List Int)),
      ascend D st (st.next_key + 1) node_key direction [] =
        some (node, wd, nds) →
      wd.all (· = 0) = false →
      get_neighbors D st node_key direction = some []) ∧
    get_neighbors 2 (ntree_new 2 1 4 [0, 0]) 0 [1, 0] = some [] ∧
    planet_get_neighbors
      (((planet_insert_and_update_neighbors 30
          (fun n => decide (n.direction = Direction.ypos) &&
            decide (n.size = (10 : ℚ)))
          (planet_new (1 / 10) 10 [0, 0, 0])).getD
        ([], planet_new (1 / 10) 10 [0, 0, 0])).2) 7 [1, 0] = some [1] ∧
    planet_get_neighbors
      (((planet_insert_and_update_neighbors 30
          (fun n => decide (n.direction = Direction.ypos) &&
            decide (n.size = (10 : ℚ)))
          (planet_new (1 / 10) 10 [0, 0, 0])).getD
        ([], planet_new (1 / 10) 10 [0, 0, 0])).2) 9 [1, 0] = some [1] := by
  refine ⟨?_, ?_, ?_, ?_⟩
  · intro D st node_key direction node wd nds hasc hwd
    simp only [get_neighbors, get_neighbors_with, find_shared_parent, hasc,
      hwd]
    rfl
  · with_unfolding_all rfl
  · set_option maxRecDepth 200000 in
    with_unfolding_all rfl
  · set_option maxRecDepth 200000 in
    with_unfolding_all rfl

/--
C5 (witness): part (a) of the theorem applied to the concrete lone quad
root: its ascent exits immediately with the nonzero direction `(+1,0)` and
the neighbour query indeed returns the empty list.
-/
theorem claim_C5_witness :
    ascend 2 (ntree_new 2 1 4 [0, 0])
        ((ntree_new 2 1 4 [0, 0]).next_key + 1) 0 [1, 0] [] =
      some (0, [1, 0], []) ∧
    ([1, 0] : List Int).all (· = 0) = false ∧
    get_neighbors 2 (ntree_new 2 1 4 [0, 0]) 0 [1, 0] = some [] := by
  refine ⟨by with_unfolding_all rfl, by decide, ?_⟩
  exact claim_C5_theorem.1 2 (ntree_new 2 1 4 [0, 0]) 0 [1, 0] 0 [1, 0] []
    (by with_unfolding_all rfl) (by decide)

/-! ### Claim C6 -/

/-- When the face test rejects every `Grown` entry, the reverse scan of
`grow_event` finds nothing to absorb into. -/
theorem grow_scan_none (st : Tree) (ok : Node → Bool) (pos : List ℚ)
    (nc : List Nat) :
    ∀ evs : List TreeEvent,
      (∀ p c, TreeEvent.Grown p c ∈ evs → ok (getU st p) = false) →
      grow_scan st ok pos nc evs = none := by
  intro evs
  induction evs with
  | nil => intro _; rfl
  | cons e rest ih =>
      intro h
      cases e with
      | Grown p c =>
          have hp := h p c (List.mem_cons_self _ _)
          simp only [grow_scan, hp, Bool.false_and, Bool.false_eq_true,
            if_false]
          rw [ih (fun p' c' hm => h p' c' (List.mem_cons_of_mem _ hm))]
          rfl
      | Shrunk a b =>
          simp only [grow_scan]
          rw [ih (fun p' c' hm => h p' c' (List.mem_cons_of_mem _ hm))]
          rfl
      | NeighborSizesChanged a =>
          simp only [grow_scan]
          rw [ih (fun p' c' hm => h p' c' (List.mem_cons_of_mem _ hm))]
          rfl

/--
C6 (confirmed): grow-event coalescing.  (a) On a quad tree `new(1, 10)`
with a predicate that subdivides the root and then its `(+,+)` child in the
same pass, the pass emits exactly one `Grown` event whose children list
`[1,2,3,5,6,7,8]` holds the `2^D + (2^D - 1) = 7` leaves of the two-level
subtree: the subdivided child 4 was dropped (no longer a leaf) and its
children appended.  (b) For the planet tree, a `Grown` event on a different
face never absorbs a new one: if every recorded `Grown` parent carries a
face tag different from the new parent's, `planet_grow_event` appends a
fresh `Grown` instead of coalescing.
-/
theorem claim_C6_theorem :
    ((insert_and_update_neighbors 2 40
        (fun n => decide ((5 : ℚ) < n.size) ||
          (decide (n.pos = [5 / 2, 5 / 2]) && decide ((2 : ℚ) < n.size)))
        (ntree_new 2 1 10 [0, 0])).map (fun r => r.1) =
      some [TreeEvent.Grown 0 [1, 2, 3, 5, 6, 7, 8]]) ∧
    [1, 2, 3, 5, 6, 7, 8].length = 2 ^ 2 + (2 ^ 2 - 1) ∧
    (∀ (st : Tree) (events : List TreeEvent) (pos : List ℚ)
        (parent_key : Nat) (new_children : List Nat),
      (∀ p c, TreeEvent.Grown p c ∈ events →
        (getU st p).direction ≠ (getU st parent_key).direction) →
      planet_grow_event st events pos parent_key new_children =
        events ++ [TreeEvent.Grown parent_key new_children]) := by
  refine ⟨?_, by decide, ?_⟩
  · set_option maxRecDepth 200000 in
    with_unfolding_all rfl
  · intro st events pos parent_key new_children h
    simp only [planet_grow_event]
    rw [grow_scan_none st _ pos new_children events.reverse ?_]
    intro p c hm
    have hne := h p c (List.mem_reverse.mp hm)
    simp only [decide_eq_false_iff_not]
    exact hne

/-! ### Claim C7 -/

/--
C7 (counterexample): the interval is not half-open.  For a node centred at
0 with size 2, the left boundary point `-1 = center - size/2` — which a
half-open interval `[c - s/2, c + s/2)` would contain — is rejected by
`contains_point`, as is the right boundary point `1`; an interior point is
accepted.
-/
theorem claim_C7_counterexample :
    contains_point (from_bounds 1 2 [0]) [-1] = false ∧
    contains_point (from_bounds 1 2 [0]) [1] = false ∧
    contains_point (from_bounds 1 2 [0]) [0] = true := by
  refine ⟨?_, ?_, ?_⟩ <;> with_unfolding_all rfl

/--
C7 (amended): `contains_point(p)` is true iff every component `p_i` lies in
the *open* interval `(c_i - s/2, c_i + s/2)` — both boundary faces of the
box are excluded (the components are paired by `zip`, so only the first
`min(|p|, |pos|)` axes are tested).
-/
theorem claim_C7_theorem :
    ∀ (n : Node) (p : List ℚ),
      contains_point n p = true ↔
      ∀ q ∈ p.zip n.pos,
        q.2 - n.size / 2 < q.1 ∧ q.1 < q.2 + n.size / 2 := by
  intro n p
  simp only [contains_point, List.all_eq_true, Bool.and_eq_true,
    decide_eq_true_eq]

/--
C7 (witness): the amended open-interval reading applied to the concrete
node of size 2 at the origin and the interior point 1/2.
-/
theorem claim_C7_witness :
    contains_point (from_bounds 1 2 [0]) [1 / 2] = true := by
  refine (claim_C7_theorem (from_bounds 1 2 [0]) [1 / 2]).mpr ?_
  intro q hq
  rw [show ([(1 / 2 : ℚ)].zip (from_bounds 1 2 [0]).pos) =
    [((1 : ℚ) / 2, (0 : ℚ))] from rfl] at hq
  simp only [List.mem_cons, List.not_mem_nil, or_false] at hq
  rw [hq]
  constructor <;> norm_num [from_bounds]

/-! ### Claim C8 -/

/--
C8 (code bug, demonstration): neighbour symmetry fails across a planet cube
edge.  On the planet tree of radius 10 with only the Y+ face subdivided
(children 6–9), leaf 7 — the Y+ child at local `(5/2, -5/2)` touching the
+X edge — sees the X+ face root 1 as its `(+1,0)` neighbour; but the
reverse queries from node 1 return `[8,6]`, `[2]`, `[5]`, `[4]` for the
four cardinal directions, so node 7 is not a neighbour of node 1 under
*any* re-expression of the opposite direction: after the face transfer,
`get_neighbors` hands the untransformed direction to
`bordering_neighbours`, which picks the children on the wrong edge of the
target face (`[8,6]`, the −X edge, instead of `[7,9]`, the +X edge).
-/
theorem claim_C8_theorem :
    (planet_get_neighbors
      (((planet_insert_and_update_neighbors 30
          (fun n => decide (n.direction = Direction.ypos) &&
            decide (n.size = (10 : ℚ)))
          (planet_new (1 / 10) 10 [0, 0, 0])).getD
        ([], planet_new (1 / 10) 10 [0, 0, 0])).2) 7 [1, 0] = some [1]) ∧
    (([[1, 0], [-1, 0], [0, 1], [0, -1]] : List (List Int)).map
        (fun d => planet_get_neighbors
          (((planet_insert_and_update_neighbors 30
              (fun n => decide (n.direction = Direction.ypos) &&
                decide (n.size = (10 : ℚ)))
              (planet_new (1 / 10) 10 [0, 0, 0])).getD
            ([], planet_new (1 / 10) 10 [0, 0, 0])).2) 1 d) =
      [some [8, 6], some [2], some [5], some [4]]) ∧
    7 ∉ [8, 6] ∧ 7 ∉ [2] ∧ 7 ∉ [5] ∧ (7 : Nat) ∉ [4] := by
  refine ⟨?_, ?_, by decide, by decide, by decide, by decide⟩
  · set_option maxRecDepth 200000 in
    with_unfolding_all rfl
  · set_option maxRecDepth 400000 in
    with_unfolding_all rfl

/-! ### Claim C9 -/

/--
C9 (counterexample): neighbour-size freshness fails on quad trees.  Pass 1
refines `new(1, 10)` once (predicate: contains the origin); pass 2 refines
child 1 once more.  Afterwards leaf 6 (size 5/2) has
`neighbor_sizes = [5/2, -1, -1, 5/2]`: the slot for direction `(+1,0)` is
index 1 and holds the sentinel `-1`, although `get_neighbors(6, (+1,0))`
returns the live leaf 2 of size 5, so the spec requires
`max(5/2, 5) = 5` there.  The cause: `all_neighbor_directions::<2>`
evaluates to `[[-1,0],[0,1],[-1,0],[0,1]]` — the directions `(+1,0)` and
`(0,-1)` are never enumerated, so their slots are refreshed only
incidentally.
-/
theorem claim_C9_counterexample :
    (((getU (((insert_and_update_neighbors 2 60
          (fun n => decide ((5 : ℚ) < n.size) ||
            decide (n.pos = [-5 / 2, -5 / 2]))
          (((insert_and_update_neighbors 2 60
              (fun n => contains_point n [0, 0])
              (ntree_new 2 1 10 [0, 0])).getD
            ([], ntree_new 2 1 10 [0, 0])).2)).getD
        ([], (((insert_and_update_neighbors 2 60
              (fun n => contains_point n [0, 0])
              (ntree_new 2 1 10 [0, 0])).getD
            ([], ntree_new 2 1 10 [0, 0])).2))).2) 6).neighbor_sizes,
      get_neighbors 2 (((insert_and_update_neighbors 2 60
          (fun n => decide ((5 : ℚ) < n.size) ||
            decide (n.pos = [-5 / 2, -5 / 2]))
          (((insert_and_update_neighbors 2 60
              (fun n => contains_point n [0, 0])
              (ntree_new 2 1 10 [0, 0])).getD
            ([], ntree_new 2 1 10 [0, 0])).2)).getD
        ([], (((insert_and_update_neighbors 2 60
              (fun n => contains_point n [0, 0])
              (ntree_new 2 1 10 [0, 0])).getD
            ([], ntree_new 2 1 10 [0, 0])).2))).2) 6 [1, 0],
      (getU (((insert_and_update_neighbors 2 60
          (fun n => decide ((5 : ℚ) < n.size) ||
            decide (n.pos = [-5 / 2, -5 / 2]))
          (((insert_and_update_neighbors 2 60
              (fun n => contains_point n [0, 0])
              (ntree_new 2 1 10 [0, 0])).getD
            ([], ntree_new 2 1 10 [0, 0])).2)).getD
        ([], (((insert_and_update_neighbors 2 60
              (fun n => contains_point n [0, 0])
              (ntree_new 2 1 10 [0, 0])).getD
            ([], ntree_new 2 1 10 [0, 0])).2))).2) 2).size,
      (getU (((insert_and_update_neighbors 2 60
          (fun n => decide ((5 : ℚ) < n.size) ||
            decide (n.pos = [-5 / 2, -5 / 2]))
          (((insert_and_update_neighbors 2 60
              (fun n => contains_point n [0, 0])
              (ntree_new 2 1 10 [0, 0])).getD
            ([], ntree_new 2 1 10 [0, 0])).2)).getD
        ([], (((insert_and_update_neighbors 2 60
              (fun n => contains_point n [0, 0])
              (ntree_new 2 1 10 [0, 0])).getD
            ([], ntree_new 2 1 10 [0, 0])).2))).2) 2).children,
      (getU (((insert_and_update_neighbors 2 60
          (fun n => decide ((5 : ℚ) < n.size) ||
            decide (n.pos = [-5 / 2, -5 / 2]))
          (((insert_and_update_neighbors 2 60
              (fun n => contains_point n [0, 0])
              (ntree_new 2 1 10 [0, 0])).getD
            ([], ntree_new 2 1 10 [0, 0])).2)).getD
        ([], (((insert_and_update_neighbors 2 60
              (fun n => contains_point n [0, 0])
              (ntree_new 2 1 10 [0, 0])).getD
            ([], ntree_new 2 1 10 [0, 0])).2))).2) 6).size) =
      ([5 / 2, -1, -1, 5 / 2], some [2], 5, none, 5 / 2)) ∧
    neighbor_index [1, 0] = some 1 ∧
    ([(5 : ℚ) / 2, -1, -1, 5 / 2].getD 1 0 = -1 ∧
      (-1 : ℚ) ≠ max (5 / 2) 5) ∧
    all_neighbor_directions 2 = [[-1, 0], [0, 1], [-1, 0], [0, 1]] := by
  refine ⟨?_, by decide, ⟨rfl, by norm_num⟩, by decide⟩
  set_option maxRecDepth 400000 in
  with_unfolding_all rfl

/--
C9 (amended): for the oct tree the freshness invariant holds as specified
in scenario S2 — `new(1, 100, (0,0,0))` refined once by the
origin-containing predicate ends with 8 leaves of size 50 whose
`neighbor_sizes` are exactly 50 on the three interior faces and the
sentinel `-1` on the three exterior faces (slot order
`[-x, +x, -y, +y, -z, +z]`); `all_neighbor_directions::<3>` does enumerate
all six face directions.  On quad trees the invariant only holds for the
two directions `(-1,0)` and `(0,+1)` actually enumerated by
`all_neighbor_directions::<2>` (see the counterexample).
-/
theorem claim_C9_theorem :
    ((((insert_and_update_neighbors 3 60
        (fun n => contains_point n [0, 0, 0])
        (ntree_new 3 1 100 [0, 0, 0])).getD
      ([], ntree_new 3 1 100 [0, 0, 0])).2).nodes.map
        (fun kn => (kn.1, kn.2.size, kn.2.neighbor_sizes)) =
      [(0, 100, [-1, -1, -1, -1, -1, -1]),
       (1, 50, [-1, 50, -1, 50, -1, 50]),
       (2, 50, [50, -1, -1, 50, -1, 50]),
       (3, 50, [-1, 50, 50, -1, -1, 50]),
       (4, 50, [50, -1, 50, -1, -1, 50]),
       (5, 50, [-1, 50, -1, 50, 50, -1]),
       (6, 50, [50, -1, -1, 50, 50, -1]),
       (7, 50, [-1, 50, 50, -1, 50, -1]),
       (8, 50, [50, -1, 50, -1, 50, -1])]) ∧
    all_neighbor_directions 3 =
      [[-1, 0, 0], [0, 1, 0], [0, 0, -1], [1, 0, 0], [0, -1, 0],
       [0, 0, 1]] ∧
    (List.map neighbor_index (all_neighbor_directions 3)).eraseDups =
      [some 0, some 3, some 4, some 1, some 2, some 5] := by
  refine ⟨?_, by decide, by decide⟩
  set_option maxRecDepth 400000 in
  with_unfolding_all rfl

/-! ### Claim C10 -/

/-- The `bordering_neighbours` work list only ever appends childless nodes
to its result. -/
theorem bordering_loop_leaves (st : Tree) (cds : List (List Int)) :
    ∀ (fuel : Nat) (pending neighbors r : List Nat),
      (∀ j ∈ neighbors, (getU st j).children = none) →
      bordering_loop st cds fuel pending neighbors = some r →
      ∀ j ∈ r, (getU st j).children = none := by
  intro fuel
  induction fuel with
  | zero =>
      intro pending neighbors r hn heq
      cases pending with
      | nil =>
          simp only [bordering_loop] at heq
          cases heq
          exact hn
      | cons a b => simp [bordering_loop] at heq
  | succ f ih =>
      intro pending neighbors r hn heq
      cases pending with
      | nil =>
          simp only [bordering_loop] at heq
          cases heq
          exact hn
      | cons k rest =>
          simp only [bordering_loop] at heq
          cases hch : (getU st k).children with
          | some cs =>
              rw [hch] at heq
              exact ih _ _ r hn heq
          | none =>
              rw [hch] at heq
              refine ih _ _ r ?_ heq
              intro j hj
              rcases List.mem_append.mp hj with hj' | hj'
              · exact hn j hj'
              · simp only [List.mem_singleton] at hj'
                rw [hj']
                exact hch

/-- Core of C10, shared by the generic and the planet `get_neighbors`: any
`find_shared_parent` implementation plugged into the default `get_neighbors`
body yields only childless nodes. -/
theorem get_neighbors_with_leaves
    (fsp : Tree → Nat → List Int → Option (Nat × List (List Int)))
    (D : Nat) (st : Tree) (node_key : Nat) (direction : List Int)
    (ks : List Nat)
    (heq : get_neighbors_with fsp D st node_key direction = some ks) :
    ∀ j ∈ ks, (getU st j).children = none := by
  simp only [get_neighbors_with] at heq
  cases hf : fsp st node_key direction with
  | none =>
      rw [hf] at heq
      cases heq
      intro j hj
      cases hj
  | some r =>
      obtain ⟨node, nds⟩ := r
      rw [hf] at heq
      have heq2 : (if (!(getU st
            (neighbour_descent st node nds)).children.isSome : Bool) = true
          then some [neighbour_descent st node nds]
          else bordering_neighbours D st (neighbour_descent st node nds)
            direction) = some ks := heq
      by_cases hch :
          ((getU st (neighbour_descent st node nds)).children.isSome :
            Bool) = true
      · rw [if_neg (by simp [hch])] at heq2
        exact bordering_loop_leaves st _ _ _ _ ks (by simp) heq2
      · rw [if_pos (by simp only [Bool.not_eq_true] at hch; rw [hch]; rfl)]
          at heq2
        cases heq2
        intro j hj
        simp only [List.mem_singleton] at hj
        rw [hj]
        exact Option.not_isSome_iff_eq_none.mp (by simpa using hch)

/--
C10 (confirmed): `get_neighbors` returns only leaves.  For every tree
state, node key and direction, both the generic quad/oct `get_neighbors`
and the planet-tree `get_neighbors` return only keys whose node has no
children at the time of the call (a dead key reads as the default childless
node, matching the source's unchecked access).
-/
theorem claim_C10_theorem :
    (∀ (D : Nat) (st : Tree) (node_key : Nat) (direction : List Int)
        (ks : List Nat),
      get_neighbors D st node_key direction = some ks →
      ∀ j ∈ ks, (getU st j).children = none) ∧
    (∀ (st : Tree) (node_key : Nat) (direction : List Int) (ks : List Nat),
      planet_get_neighbors st node_key direction = some ks →
      ∀ j ∈ ks, (getU st j).children = none) := by
  exact ⟨fun D st nk d ks heq => get_neighbors_with_leaves _ D st nk d ks heq,
    fun st nk d ks heq => get_neighbors_with_leaves _ 2 st nk d ks heq⟩

/--
C10 (witness): the claim applied concretely — on the planet tree with the
Y+ face subdivided, `get_neighbors(7, (+1,0))` returns `[1]` and node 1 is
indeed childless.
-/
theorem claim_C10_witness :
    planet_get_neighbors
      (((planet_insert_and_update_neighbors 30
          (fun n => decide (n.direction = Direction.ypos) &&
            decide (n.size = (10 : ℚ)))
          (planet_new (1 / 10) 10 [0, 0, 0])).getD
        ([], planet_new (1 / 10) 10 [0, 0, 0])).2) 7 [1, 0] = some [1] ∧
    (getU (((planet_insert_and_update_neighbors 30
          (fun n => decide (n.direction = Direction.ypos) &&
            decide (n.size = (10 : ℚ)))
          (planet_new (1 / 10) 10 [0, 0, 0])).getD
        ([], planet_new (1 / 10) 10 [0, 0, 0])).2) 1).children = none := by
  refine ⟨?_, ?_⟩
  · set_option maxRecDepth 200000 in
    with_unfolding_all rfl
  · refine claim_C10_theorem.2
      (((planet_insert_and_update_neighbors 30
          (fun n => decide (n.direction = Direction.ypos) &&
            decide (n.size = (10 : ℚ)))
          (planet_new (1 / 10) 10 [0, 0, 0])).getD
        ([], planet_new (1 / 10) 10 [0, 0, 0])).2) 7 [1, 0] [1] ?_ 1
      (List.mem_singleton.mpr rfl)
    set_option maxRecDepth 200000 in
    with_unfolding_all rfl

/-! ### Claim C2 -/

/--
C2 (counterexample): idempotence fails for a predicate that inspects
`has_children`.  On a quad-tree `new(1, 4, (0,0))` with the predicate
`!has_children`, the first `insert_and_update_neighbors` fully refines the
tree, and the second call — far from producing no events — shrinks the root
and emits a `Shrunk` event.
-/
theorem claim_C2_counterexample :
    ((insert_and_update_neighbors 2 40 (fun n => !n.children.isSome)
        (ntree_new 2 1 4 [0, 0])).bind
      (fun r => insert_and_update_neighbors 2 40
        (fun n => !n.children.isSome) r.2)).map (fun r => r.1) =
      some [TreeEvent.Shrunk 0
        [8, 7, 6, 5, 12, 11, 10, 9, 16, 15, 14, 13, 20, 19, 18, 17]] ∧
    ([TreeEvent.Shrunk 0
        [8, 7, 6, 5, 12, 11, 10, 9, 16, 15, 14, 13, 20, 19, 18, 17]] :
      List TreeEvent) ≠ [] := by
  refine ⟨?_, by decide⟩
  set_option maxRecDepth 100000 in
  with_unfolding_all rfl

/--
C2 (amended): for every predicate that depends only on a node's immutable
geometry (size, position, face tag, world position) — not on
`has_children` — and every well-formed tree state, a completed
`insert_and_update_neighbors` pass is idempotent: with enough fuel the
second call returns an empty event list and exactly the same state (same
node set, same `neighbor_sizes`).  Stated for the generic quad/oct core and
for the planet tree.
-/
theorem claim_C2_theorem :
    (∀ (D : Nat) (p : Node → Bool) (st0 : Tree) (kss : List (List Nat))
      (fuel : Nat) (ev1 : List TreeEvent) (st1 : Tree),
      GeomPred p →
      (st0.nodes.map Prod.fst).Nodup →
      (∀ j ∈ st0.nodes.map Prod.fst, j < st0.next_key) →
      List.Forall₂ (Subtree st0.nodes st0.next_key) st0.roots.reverse kss →
      kss.flatten.Nodup →
      insert_and_update_neighbors D fuel p st0 = some (ev1, st1) →
      ∃ bound, ∀ fuel2, bound ≤ fuel2 →
        insert_and_update_neighbors D fuel2 p st1 = some ([], st1)) ∧
    (∀ (p : Node → Bool) (st0 : Tree) (kss : List (List Nat))
      (fuel : Nat) (ev1 : List TreeEvent) (st1 : Tree),
      GeomPred p →
      (st0.nodes.map Prod.fst).Nodup →
      (∀ j ∈ st0.nodes.map Prod.fst, j < st0.next_key) →
      List.Forall₂ (Subtree st0.nodes st0.next_key) st0.roots.reverse kss →
      kss.flatten.Nodup →
      planet_insert_and_update_neighbors fuel p st0 = some (ev1, st1) →
      ∃ bound, ∀ fuel2, bound ≤ fuel2 →
        planet_insert_and_update_neighbors fuel2 p st1 =
          some ([], st1)) := by
  constructor
  · intro D p st0 kss fuel ev1 st1 hp hnd hbound hF hflat heq
    simp only [insert_and_update_neighbors] at heq
    cases h : insertN D fuel p st0 with
    | none => rw [h] at heq; cases heq
    | some r =>
        obtain ⟨evA, stA⟩ := r
        rw [h] at heq
        simp only [Option.map_some'] at heq
        cases heq
        simp only [insertN] at h
        obtain ⟨bound, hb⟩ := insert_fixed_core (create_children D)
          grow_event (ccspec_create_children D) p hp hnd hbound hF hflat h
          (update_events_samestruct D stA ev1)
        refine ⟨bound, fun fuel2 hf2 => ?_⟩
        simp only [insert_and_update_neighbors, insertN, hb fuel2 hf2]
        rfl
  · intro p st0 kss fuel ev1 st1 hp hnd hbound hF hflat heq
    simp only [planet_insert_and_update_neighbors] at heq
    cases h : insertP fuel p st0 with
    | none => rw [h] at heq; cases heq
    | some r =>
        obtain ⟨evA, stA⟩ := r
        rw [h] at heq
        simp only [Option.map_some'] at heq
        cases heq
        simp only [insertP] at h
        obtain ⟨bound, hb⟩ := insert_fixed_core planet_create_children
          planet_grow_event ccspec_planet_create_children p hp hnd hbound
          hF hflat h (planet_update_events_samestruct stA ev1)
        refine ⟨bound, fun fuel2 hf2 => ?_⟩
        simp only [planet_insert_and_update_neighbors, insertP,
          hb fuel2 hf2]
        rfl

/--
C2 (witness): the amended idempotence applied to the concrete quad-tree
`new(1, 10, (0,0))` with the geometry-only predicate `4 < size`.
-/
theorem claim_C2_witness :
    ∃ bound, ∀ fuel2, bound ≤ fuel2 →
      insert_and_update_neighbors 2 fuel2 (fun n => decide ((4 : ℚ) < n.size))
        (((insert_and_update_neighbors 2 50
            (fun n => decide ((4 : ℚ) < n.size))
            (ntree_new 2 1 10 [0, 0])).getD
          ([], ntree_new 2 1 10 [0, 0])).2) =
        some ([], (((insert_and_update_neighbors 2 50
            (fun n => decide ((4 : ℚ) < n.size))
            (ntree_new 2 1 10 [0, 0])).getD
          ([], ntree_new 2 1 10 [0, 0])).2)) := by
  refine claim_C2_theorem.1 2 (fun n => decide ((4 : ℚ) < n.size))
    (ntree_new 2 1 10 [0, 0]) [[0]] 50
    (((insert_and_update_neighbors 2 50
        (fun n => decide ((4 : ℚ) < n.size))
        (ntree_new 2 1 10 [0, 0])).getD
      ([], ntree_new 2 1 10 [0, 0])).1) _
    ?_ ?_ ?_ ?_ ?_ ?_
  · intro n m hs _ _ _
    simp only [hs]
  · decide
  · decide
  · exact List.Forall₂.cons (Subtree.leaf rfl rfl) List.Forall₂.nil
  · decide
  · set_option maxRecDepth 100000 in
    with_unfolding_all rfl

end SpatialTrees
